import Mathlib

/-!
# Verification of `dimod/higherorder/polynomial.py` (`BinaryPolynomial`)

A shallow embedding of the `BinaryPolynomial` class.  A Python `dict` is an
insertion-ordered association list, so a polynomial is modelled as
`List (Finset ℕ × ℚ)`: each entry is a term (a `frozenset` of variables,
here a `Finset ℕ`) together with its bias (here `ℚ`, an exact stand-in for
Python floats; none of the verified claims depend on rounding).  The
`vartype` attribute is stored by the class but never read by any of the
operations modelled here, so it is omitted.

Relabeling mappings (Python dicts `old label → new label`) are modelled as
`List (ℕ × ℕ)` with distinct keys.
-/

namespace Dimod

/-! ## Definitions: the shallow embedding of `BinaryPolynomial` -/

/-- A polynomial: the `_terms` dict, as an insertion-ordered association list
from canonical terms (frozensets of variables) to biases. -/
abbrev Poly := List (Finset ℕ × ℚ)

/-- A relabeling mapping (a Python dict `old → new`). -/
abbrev Mapping := List (ℕ × ℕ)

/-- `asfrozenset`: canonicalize an iterable of variables to a `frozenset`. -/
def asfrozenset (term : List ℕ) : Finset ℕ := term.toFinset

/-- Dict lookup: `self._terms[term]`, `none` when the key raises `KeyError`. -/
def lookupTerm (t : Finset ℕ) : Poly → Option ℚ
  | [] => none
  | (u, b) :: rest => if u = t then some b else lookupTerm t rest

/-- `term in self._terms` (membership test on the dict). -/
def containsTerm (p : Poly) (t : Finset ℕ) : Bool :=
  (lookupTerm t p).isSome

/-- The dict invariant: keys occur at most once. -/
def nodupKeys (p : Poly) : Prop := (p.map Prod.fst).Nodup

instance (p : Poly) : Decidable (nodupKeys p) := by
  unfold nodupKeys; infer_instance

/-- `__setitem__`: `self._terms[asfrozenset(term)] = bias`.  An existing key
keeps its position and gets the new value; a fresh key is appended. -/
def setItem (p : Poly) (t : Finset ℕ) (b : ℚ) : Poly :=
  if containsTerm p t then
    p.map (fun tb => if tb.1 = t then (t, b) else tb)
  else
    p ++ [(t, b)]

/-- `__delitem__`: `del self._terms[asfrozenset(term)]`. -/
def delItem (p : Poly) (t : Finset ℕ) : Poly :=
  p.filter (fun tb => tb.1 ≠ t)

/-- The `variables` property: `set().union(*self._terms)`. -/
def polyVars (p : Poly) : Finset ℕ :=
  p.foldr (fun tb acc => tb.1 ∪ acc) ∅

/-- `__init__`: aggregate one `(term, bias)` pair into the `_terms` dict:
`terms[term] += bias` when present, `terms[term] = bias` otherwise. -/
def addTerm (terms : Poly) (t : Finset ℕ) (b : ℚ) : Poly :=
  if containsTerm terms t then
    terms.map (fun tb => if tb.1 = t then (tb.1, tb.2 + b) else tb)
  else
    terms ++ [(t, b)]

/-- `__init__(poly, vartype)`: canonicalize each term with `asfrozenset` and
aggregate repeats by summation, in input order. -/
def initTerms (entries : List (List ℕ × ℚ)) : Poly :=
  entries.foldl (fun acc tb => addTerm acc (asfrozenset tb.1) tb.2) []

/-- The input biases feeding a given canonical term. -/
def biasesFor (entries : List (List ℕ × ℚ)) (t : Finset ℕ) : List ℚ :=
  (entries.filter (fun e => asfrozenset e.1 = t)).map Prod.snd

/-- The bias an aggregation starting from `acc`'s binding ends at. -/
def optAccum : Option ℚ → List ℚ → Option ℚ
  | some b, l => some (b + l.sum)
  | none, l => if l.isEmpty then none else some l.sum

/-- `len()` applied to a numeric bias: Python numbers have no `__len__`, so
`len(bias)` raises `TypeError`; modelled as `none`. -/
def lenOfBias (_b : ℚ) : Option ℕ := none

/-- The `degree` property exactly as written in the source:
`0` when the dict is empty, otherwise `max(map(len, self._terms.values()))`,
i.e. `len` taken of the **biases** (`.values()`), which raises `TypeError`
(`none`) the moment the first bias is reached. -/
def degree (p : Poly) : Option ℕ :=
  if p.length = 0 then some 0
  else (p.mapM (fun tb => lenOfBias tb.2)).map (fun ls => ls.foldr max 0)

/-- The degree the spec describes: the size of the largest term, taken over
the dict's keys (`max(map(len, self._terms))`), `0` for an empty polynomial. -/
def degreeSpec (p : Poly) : ℕ :=
  (p.map (fun tb => tb.1.card)).foldr max 0

/-- One numpy update step of the `energies` loop: for an empty term
`energies += bias`; otherwise
`energies += np.prod([samples[:, v] for v in term], axis=0) * bias`. -/
def energiesStep (samples : List (ℕ → ℚ)) (acc : List ℚ) (tb : Finset ℕ × ℚ) :
    List ℚ :=
  if tb.1 = ∅ then acc.map (fun e => e + tb.2)
  else acc.zipWith (fun e c => e + c) (samples.map (fun s => tb.1.prod s * tb.2))

/-- `energies(samples_like)`: start from `np.zeros(num_samples)` and fold the
update step over the terms of the polynomial. -/
def energies (p : Poly) (samples : List (ℕ → ℚ)) : List ℚ :=
  p.foldl (energiesStep samples) (samples.map (fun _ => 0))

/-- `energy(sample_like)`: `energy, = self.energies(sample_like)` — unpack the
length-one batch; any other length raises (`none`). -/
def energy (p : Poly) (s : ℕ → ℚ) : Option ℚ :=
  match energies p [s] with
  | [e] => some e
  | _ => none

/-- The contribution of a single term to the energy of one sample: the bias
alone for the empty term, otherwise bias times the product of the sample's
values over the term's variables. -/
def termContribution (s : ℕ → ℚ) (tb : Finset ℕ × ℚ) : ℚ :=
  if tb.1 = ∅ then tb.2 else tb.1.prod s * tb.2

/-- The energy of one sample as a plain sum over the terms. -/
def singleEnergy (p : Poly) (s : ℕ → ℚ) : ℚ :=
  (p.map (termContribution s)).sum

/-- A range argument: a `Number` `r` (parsed as `(-abs(r), abs(r))`) or an
explicit pair of bounds. -/
inductive Range
  | num (r : ℚ)
  | pair (lo hi : ℚ)

/-- `parse_range` inside `normalize`. -/
def parse_range : Range → ℚ × ℚ
  | .num r => (-|r|, |r|)
  | .pair lo hi => (lo, hi)

/-- `scale(scalar, ignored_terms)`: multiply every non-ignored bias by the
scalar, in place. -/
def scale (p : Poly) (scalar : ℚ) (ignored : Finset (Finset ℕ)) : Poly :=
  p.map (fun tb => if tb.1 ∈ ignored then tb else (tb.1, tb.2 * scalar))

/-- The extrema loop of `normalize` exactly as written in the source: terms
of size 1 update `lmin`/`lmax`; terms of size `> 1` assign `pmin`/`pmax` but
**compare against `lmin`/`lmax`** (`if bias < lmin: pmin = bias`,
`if bias > lmax: pmax = bias`).  State is `(lmin, lmax, pmin, pmax)`. -/
def extrema (p : Poly) : ℚ × ℚ × ℚ × ℚ :=
  p.foldl
    (fun st tb =>
      if tb.1.card = 1 then
        (if tb.2 < st.1 then tb.2 else st.1,
         if tb.2 > st.2.1 then tb.2 else st.2.1,
         st.2.2.1, st.2.2.2)
      else if tb.1.card > 1 then
        (st.1, st.2.1,
         if tb.2 < st.1 then tb.2 else st.2.2.1,
         if tb.2 > st.2.1 then tb.2 else st.2.2.2)
      else st)
    (0, 0, 0, 0)

/-- Python's binary `max`: returns the second argument iff it is strictly
larger (ties keep the first), which for numbers is the lattice `max`. -/
def pymax (a b : ℚ) : ℚ := if a < b then b else a

/-- `inv_scalar = max(lmin / lin_range[0], lmax / lin_range[1],
pmin / poly_range[0], pmax / poly_range[1])`. -/
def invScalar (p : Poly) (linR polyR : ℚ × ℚ) : ℚ :=
  pymax (pymax ((extrema p).1 / linR.1) ((extrema p).2.1 / linR.2))
        (pymax ((extrema p).2.2.1 / polyR.1) ((extrema p).2.2.2 / polyR.2))

/-- `normalize(bias_range=1, poly_range=None, ignored_terms=None)`: when
`poly_range` is `None` both groups use `bias_range`; scale by `1/inv_scalar`
unless `inv_scalar == 0`. -/
def normalize (p : Poly) (bias_range : Range) (poly_range : Option Range)
    (ignored : Finset (Finset ℕ)) : Poly :=
  if invScalar p (parse_range bias_range)
      (parse_range (poly_range.getD bias_range)) ≠ 0 then
    scale p
      (1 / invScalar p (parse_range bias_range)
        (parse_range (poly_range.getD bias_range))) ignored
  else p

/-- `to_hubo`: the non-empty terms, plus `self[tuple()]` (or `0`) as the
offset. -/
def to_hubo (p : Poly) : Poly × ℚ :=
  (p.filter (fun tb => tb.1 ≠ ∅), (lookupTerm ∅ p).getD 0)

/-- The possible outcomes of `from_hubo` as written in the source: its body
references a local `poly` that is never assigned, so it raises `NameError`
when an offset is given, and otherwise falls through without a `return`,
producing Python `None` — never a `BinaryPolynomial`. -/
inductive FromHuboResult
  | nameError
  | pyNone
deriving DecidableEq

/-- `from_hubo(H, offset=None)` exactly as written: `H` is never read, `poly`
is never bound, nothing is constructed or returned. -/
def from_hubo (_H : List (List ℕ × ℚ)) (offset : Option ℚ) : FromHuboResult :=
  match offset with
  | some _ => .nameError
  | none => .pyNone

/-- `old_labels = set(mapping)`. -/
def mapKeys (m : Mapping) : Finset ℕ := (m.map Prod.fst).toFinset

/-- `new_labels = set(mapping.values())`. -/
def mapVals (m : Mapping) : Finset ℕ := (m.map Prod.snd).toFinset

/-- Dict lookup on a mapping. -/
def lookupVar (v : ℕ) : Mapping → Option ℕ
  | [] => none
  | (o, n) :: rest => if o = v then some n else lookupVar v rest

/-- `mapping.get(v, v)`. -/
def mapVar (m : Mapping) (v : ℕ) : ℕ := (lookupVar v m).getD v

/-- One iteration of the relabeling loop: if the term changes under the
mapping, `self[newterm] = bias` then `del self[oldterm]`. -/
def relabelStep (m : Mapping) (cur : Poly) (tb : Finset ℕ × ℚ) : Poly :=
  if tb.1.image (mapVar m) ≠ tb.1 then
    delItem (setItem cur (tb.1.image (mapVar m)) tb.2) tb.1
  else cur

/-- The final loop of `relabel_variables`, iterating over the snapshot
`list(self.items())` while mutating the dict. -/
def relabelLoop (p : Poly) (m : Mapping) : Poly :=
  p.foldl (relabelStep m) p

/-- Modelled from the spec: `resolve_label_conflict` lives in
`dimod/utilities.py`, which is not among the sources here.  The spec says the
conflict-resolution "first map[s] every conflicting old label to a fresh,
guaranteed-unused intermediate label", applies that, "then map[s] the
intermediate labels to their final new labels".  Given the full mapping's
old-label set `oS` and new-label set `nS` and a counter `k` past every label
to avoid, split the mapping into an `old → intermediate` part and an
`intermediate → new` part: identity pairs are dropped, conflicting pairs
(old label also a new label, or new label also an old label) are routed
through a fresh intermediate, the rest map directly. -/
def splitMapping (oS nS : Finset ℕ) : ℕ → Mapping → Mapping × Mapping
  | _, [] => ([], [])
  | k, (o, n) :: rest =>
    let r := splitMapping oS nS (k + 1) rest
    if o = n then r
    else if o ∈ nS ∨ n ∈ oS then ((o, k) :: r.1, (k, n) :: r.2)
    else ((o, n) :: r.1, r.2)

/-- Modelled from the spec (see `splitMapping`): fresh intermediate labels
start past everything in `avoid`. -/
def resolve_label_conflict (m : Mapping) (avoid : Finset ℕ) :
    Mapping × Mapping :=
  splitMapping (mapKeys m) (mapVals m) (avoid.sup id + 1) m

/-- The outcome of a (possibly failing) in-place `relabel_variables` call:
the polynomial state after the call, and the raised error if any. -/
structure RelabelOutcome where
  poly : Poly
  err : Option String

/-- `relabel_variables(mapping, inplace=True)`: first check every new label
for a collision with an existing variable that is not itself relabeled away
(`ValueError`, polynomial untouched); then, when old and new labels are
shared, resolve through an intermediate mapping with two recursive calls;
otherwise run the relabeling loop. -/
def relabel_variables (p : Poly) (m : Mapping) : RelabelOutcome :=
  if ∃ v ∈ mapVals m, v ∈ polyVars p ∧ v ∉ mapKeys m then
    ⟨p, some "A variable cannot be relabeled without also relabeling the existing variable of the same name"⟩
  else if h2 : (mapKeys m ∩ mapVals m).Nonempty then
    let mm := resolve_label_conflict m (mapKeys m ∪ mapVals m ∪ polyVars p)
    let r1 := relabel_variables p mm.1
    match r1.err with
    | some e => ⟨r1.poly, some e⟩
    | none => relabel_variables r1.poly mm.2
  else
    ⟨relabelLoop p m, none⟩
termination_by (mapKeys m ∩ mapVals m).card
decreasing_by
  · have hQ : ∀ (k : ℕ) (mm : Mapping), (∀ pr ∈ mm, pr ∈ m) →
        (∀ x ∈ mapKeys m, x < k) →
        (∀ x ∈ (splitMapping (mapKeys m) (mapVals m) k mm).1.map Prod.fst,
            x ∈ mapKeys m) ∧
        (∀ x ∈ (splitMapping (mapKeys m) (mapVals m) k mm).1.map Prod.snd,
            x ∉ mapKeys m ∨ k ≤ x) := by
      intro k mm
      induction mm generalizing k with
      | nil =>
          intro _ _
          constructor
          · intro x hx
            simp [splitMapping] at hx
          · intro x hx
            simp [splitMapping] at hx
      | cons hd rest ih =>
          intro hsub hlt
          obtain ⟨o, n⟩ := hd
          have ihr := ih (k + 1)
            (fun pr hpr => hsub pr (List.mem_cons_of_mem _ hpr))
            (fun x hx => lt_trans (hlt x hx) (Nat.lt_succ_self k))
          have hoK : o ∈ mapKeys m :=
            List.mem_toFinset.mpr (List.mem_map.mpr
              ⟨(o, n), hsub (o, n) (List.mem_cons_self _ _), rfl⟩)
          rw [splitMapping]
          by_cases h1 : o = n
          · rw [if_pos h1]
            exact ⟨ihr.1,
              fun x hx => (ihr.2 x hx).imp id (le_trans (Nat.le_succ k))⟩
          · rw [if_neg h1]
            by_cases hcf : o ∈ mapVals m ∨ n ∈ mapKeys m
            · rw [if_pos hcf]
              constructor
              · intro x hx
                rw [List.map_cons] at hx
                rcases List.mem_cons.mp hx with he | he
                · have he' : x = o := he
                  rw [he']
                  exact hoK
                · exact ihr.1 x he
              · intro x hx
                rw [List.map_cons] at hx
                rcases List.mem_cons.mp hx with he | he
                · have he' : x = k := he
                  exact Or.inr (by omega)
                · rcases ihr.2 x he with h | h
                  · exact Or.inl h
                  · exact Or.inr (le_trans (Nat.le_succ k) h)
            · rw [if_neg hcf]
              constructor
              · intro x hx
                rw [List.map_cons] at hx
                rcases List.mem_cons.mp hx with he | he
                · have he' : x = o := he
                  rw [he']
                  exact hoK
                · exact ihr.1 x he
              · intro x hx
                rw [List.map_cons] at hx
                rcases List.mem_cons.mp hx with he | he
                · have he' : x = n := he
                  refine Or.inl (fun hn => hcf (Or.inr ?_))
                  rw [← he']
                  exact hn
                · rcases ihr.2 x he with h | h
                  · exact Or.inl h
                  · exact Or.inr (le_trans (Nat.le_succ k) h)
    have hempty : mapKeys (resolve_label_conflict m
        (mapKeys m ∪ mapVals m ∪ polyVars p)).1 ∩
        mapVals (resolve_label_conflict m
          (mapKeys m ∪ mapVals m ∪ polyVars p)).1 = ∅ := by
      rw [Finset.eq_empty_iff_forall_not_mem]
      intro x hx
      rw [Finset.mem_inter] at hx
      obtain ⟨hQ1, hQ2⟩ := hQ
        ((mapKeys m ∪ mapVals m ∪ polyVars p).sup id + 1) m (fun pr h => h)
        (fun y hy => Nat.lt_succ_of_le (Finset.le_sup (f := id)
          (Finset.mem_union_left _ (Finset.mem_union_left _ hy))))
      have hx1 := hQ1 x (List.mem_toFinset.mp hx.1)
      rcases hQ2 x (List.mem_toFinset.mp hx.2) with h | h
      · exact h hx1
      · exact absurd (Nat.lt_succ_of_le (Finset.le_sup (f := id)
          (Finset.mem_union_left _ (Finset.mem_union_left _ hx1))))
          (not_lt.mpr h)
    rw [hempty]
    simpa using Finset.card_pos.mpr h2
  · have hQ : ∀ (k : ℕ) (mm : Mapping), (∀ pr ∈ mm, pr ∈ m) →
        (∀ x ∈ (splitMapping (mapKeys m) (mapVals m) k mm).2.map Prod.fst,
            k ≤ x) ∧
        (∀ x ∈ (splitMapping (mapKeys m) (mapVals m) k mm).2.map Prod.snd,
            x ∈ mapVals m) := by
      intro k mm
      induction mm generalizing k with
      | nil =>
          intro _
          constructor
          · intro x hx
            simp [splitMapping] at hx
          · intro x hx
            simp [splitMapping] at hx
      | cons hd rest ih =>
          intro hsub
          obtain ⟨o, n⟩ := hd
          have ihr := ih (k + 1)
            (fun pr hpr => hsub pr (List.mem_cons_of_mem _ hpr))
          have hnV : n ∈ mapVals m :=
            List.mem_toFinset.mpr (List.mem_map.mpr
              ⟨(o, n), hsub (o, n) (List.mem_cons_self _ _), rfl⟩)
          rw [splitMapping]
          by_cases h1 : o = n
          · rw [if_pos h1]
            exact ⟨fun x hx => le_trans (Nat.le_succ k) (ihr.1 x hx), ihr.2⟩
          · rw [if_neg h1]
            by_cases hcf : o ∈ mapVals m ∨ n ∈ mapKeys m
            · rw [if_pos hcf]
              constructor
              · intro x hx
                rw [List.map_cons] at hx
                rcases List.mem_cons.mp hx with he | he
                · have he' : x = k := he
                  omega
                · exact le_trans (Nat.le_succ k) (ihr.1 x he)
              · intro x hx
                rw [List.map_cons] at hx
                rcases List.mem_cons.mp hx with he | he
                · have he' : x = n := he
                  rw [he']
                  exact hnV
                · exact ihr.2 x he
            · rw [if_neg hcf]
              exact ⟨fun x hx => le_trans (Nat.le_succ k) (ihr.1 x hx), ihr.2⟩
    have hempty : mapKeys (resolve_label_conflict m
        (mapKeys m ∪ mapVals m ∪ polyVars p)).2 ∩
        mapVals (resolve_label_conflict m
          (mapKeys m ∪ mapVals m ∪ polyVars p)).2 = ∅ := by
      rw [Finset.eq_empty_iff_forall_not_mem]
      intro x hx
      rw [Finset.mem_inter] at hx
      obtain ⟨hQ1, hQ2⟩ := hQ
        ((mapKeys m ∪ mapVals m ∪ polyVars p).sup id + 1) m (fun pr h => h)
      have hge := hQ1 x (List.mem_toFinset.mp hx.1)
      have hmv := hQ2 x (List.mem_toFinset.mp hx.2)
      exact absurd (Nat.lt_succ_of_le (Finset.le_sup (f := id)
          (Finset.mem_union_left _ (Finset.mem_union_right _ hmv))))
        (not_lt.mpr hge)
    rw [hempty]
    simpa using Finset.card_pos.mpr h2

/-! ## Theorems -/

theorem lookupTerm_eq_none_iff (t : Finset ℕ) (p : Poly) :
    lookupTerm t p = none ↔ t ∉ p.map Prod.fst := by
  induction p with
  | nil => simp [lookupTerm]
  | cons tb rest ih =>
      obtain ⟨v, c⟩ := tb
      simp only [lookupTerm, List.map_cons, List.mem_cons]
      by_cases h : v = t
      · subst h
        simp
      · simp only [if_neg h, ih]
        constructor
        · intro hn hc
          rcases hc with hc | hc
          · exact h hc.symm
          · exact hn hc
        · intro hn hc
          exact hn (Or.inr hc)

theorem lookupTerm_isSome_iff (t : Finset ℕ) (p : Poly) :
    (lookupTerm t p).isSome ↔ t ∈ p.map Prod.fst := by
  rw [Option.isSome_iff_ne_none, ne_eq, lookupTerm_eq_none_iff, not_not]

theorem lookupTerm_of_not_contains (t : Finset ℕ) (p : Poly)
    (h : ¬ containsTerm p t = true) : lookupTerm t p = none := by
  revert h
  unfold containsTerm
  cases lookupTerm t p <;> simp

theorem mem_of_lookupTerm (t : Finset ℕ) (b : ℚ) (p : Poly)
    (h : lookupTerm t p = some b) : (t, b) ∈ p := by
  induction p with
  | nil => simp [lookupTerm] at h
  | cons tb rest ih =>
      obtain ⟨v, c⟩ := tb
      simp only [lookupTerm] at h
      by_cases hv : v = t
      · rw [if_pos hv] at h
        subst hv
        cases Option.some.inj h
        exact List.mem_cons_self _ _
      · rw [if_neg hv] at h
        exact List.mem_cons_of_mem _ (ih h)

theorem lookupTerm_of_mem (t : Finset ℕ) (b : ℚ) (p : Poly)
    (hp : nodupKeys p) (h : (t, b) ∈ p) : lookupTerm t p = some b := by
  induction p with
  | nil => simp at h
  | cons tb rest ih =>
      obtain ⟨v, c⟩ := tb
      rcases List.mem_cons.mp h with h1 | h1
      · cases h1
        simp [lookupTerm]
      · have ht : v ≠ t := by
          intro he
          have hmem : t ∈ rest.map Prod.fst :=
            List.mem_map.mpr ⟨(t, b), h1, rfl⟩
          have hnotin := (List.nodup_cons.mp hp).1
          rw [he] at hnotin
          exact hnotin hmem
        simp only [lookupTerm, if_neg ht]
        exact ih (List.nodup_cons.mp hp).2 h1

theorem lookupTerm_append (t : Finset ℕ) (p q : Poly) :
    lookupTerm t (p ++ q) =
      match lookupTerm t p with
      | some b => some b
      | none => lookupTerm t q := by
  induction p with
  | nil => simp [lookupTerm]
  | cons tb rest ih =>
      obtain ⟨v, c⟩ := tb
      by_cases h : v = t <;> simp [lookupTerm, h, ih]

theorem lookupTerm_delItem (u t : Finset ℕ) (p : Poly) :
    lookupTerm u (delItem p t) =
      if u = t then none else lookupTerm u p := by
  induction p with
  | nil => simp [lookupTerm, delItem]
  | cons tb rest ih =>
      obtain ⟨v, c⟩ := tb
      unfold delItem at ih ⊢
      by_cases h : v = t
      · subst h
        rw [List.filter_cons_of_neg (by simp), ih]
        by_cases hu : u = v
        · rw [if_pos hu, if_pos hu]
        · rw [if_neg hu, if_neg hu]
          simp only [lookupTerm]
          rw [if_neg (fun he => hu he.symm)]
      · rw [List.filter_cons_of_pos (by simp [h])]
        simp only [lookupTerm]
        by_cases hvu : v = u
        · subst hvu
          rw [if_pos rfl, if_neg (fun he => h he), if_pos rfl]
        · simp only [if_neg hvu]
          exact ih

theorem keys_delItem (p : Poly) (t : Finset ℕ) :
    (delItem p t).map Prod.fst = (p.map Prod.fst).filter (fun u => u ≠ t) := by
  induction p with
  | nil => rfl
  | cons tb rest ih =>
      obtain ⟨v, c⟩ := tb
      unfold delItem at ih ⊢
      by_cases h : v = t
      · rw [List.filter_cons_of_neg (by simp [h]), List.map_cons,
          List.filter_cons_of_neg (by simp [h]), ih]
      · rw [List.filter_cons_of_pos (by simp [h]), List.map_cons,
          List.map_cons, List.filter_cons_of_pos (by simp [h]), ih]

theorem lookupTerm_map_set (p : Poly) (t : Finset ℕ) (b : ℚ) (u : Finset ℕ) :
    lookupTerm u (p.map (fun tb => if tb.1 = t then (t, b) else tb)) =
      if u = t then (lookupTerm t p).map (fun _ => b)
      else lookupTerm u p := by
  induction p with
  | nil =>
      by_cases hu : u = t <;> simp [lookupTerm, hu]
  | cons tb rest ih =>
      obtain ⟨v, c⟩ := tb
      rw [List.map_cons]
      show lookupTerm u ((if v = t then (t, b) else (v, c)) :: _) = _
      by_cases h : v = t
      · subst h
        rw [if_pos rfl]
        simp only [lookupTerm]
        by_cases hu : u = v
        · subst hu
          simp
        · simp only [if_neg hu, if_neg (show ¬ v = u from fun he => hu he.symm)]
          rw [ih, if_neg hu]
      · rw [if_neg h]
        simp only [lookupTerm]
        by_cases hvu : v = u
        · subst hvu
          simp [if_neg h]
        · simp only [if_neg h, if_neg hvu]
          exact ih

theorem lookupTerm_setItem_self (p : Poly) (t : Finset ℕ) (b : ℚ) :
    lookupTerm t (setItem p t b) = some b := by
  unfold setItem
  by_cases h : containsTerm p t
  · rw [if_pos h, lookupTerm_map_set, if_pos rfl]
    unfold containsTerm at h
    cases hcl : lookupTerm t p
    · rw [hcl] at h; simp at h
    · rfl
  · rw [if_neg h, lookupTerm_append, lookupTerm_of_not_contains t p h]
    simp [lookupTerm]

theorem lookupTerm_setItem_other (p : Poly) (t u : Finset ℕ) (b : ℚ)
    (hu : u ≠ t) : lookupTerm u (setItem p t b) = lookupTerm u p := by
  unfold setItem
  by_cases h : containsTerm p t
  · rw [if_pos h, lookupTerm_map_set, if_neg hu]
  · rw [if_neg h, lookupTerm_append]
    have htu : t ≠ u := fun he => hu he.symm
    cases hcl : lookupTerm u p <;> simp [lookupTerm, htu]

/-- C10: `P[t] = b` stores `b` as the bias of the canonical form of `t`,
replacing any previously stored bias (no summation outside the constructor),
and leaves every other term's bias unchanged. -/
theorem C10_setitem_replaces :
    ∀ (p : Poly) (tl : List ℕ) (b : ℚ),
      lookupTerm (asfrozenset tl) (setItem p (asfrozenset tl) b) = some b ∧
      ∀ u : Finset ℕ, u ≠ asfrozenset tl →
        lookupTerm u (setItem p (asfrozenset tl) b) = lookupTerm u p :=
  fun p _tl b =>
    ⟨lookupTerm_setItem_self p _ b,
     fun u hu => lookupTerm_setItem_other p _ u b hu⟩

theorem lookupTerm_map_add (p : Poly) (t : Finset ℕ) (b : ℚ) (u : Finset ℕ) :
    lookupTerm u (p.map (fun tb => if tb.1 = t then (tb.1, tb.2 + b) else tb)) =
      if u = t then (lookupTerm t p).map (fun c => c + b)
      else lookupTerm u p := by
  induction p with
  | nil =>
      by_cases hu : u = t <;> simp [lookupTerm, hu]
  | cons tb rest ih =>
      obtain ⟨v, c⟩ := tb
      rw [List.map_cons]
      show lookupTerm u ((if v = t then (v, c + b) else (v, c)) :: _) = _
      by_cases h : v = t
      · subst h
        rw [if_pos rfl]
        simp only [lookupTerm]
        by_cases hu : u = v
        · subst hu
          simp
        · simp only [if_neg hu, if_neg (show ¬ v = u from fun he => hu he.symm)]
          rw [ih, if_neg hu]
      · rw [if_neg h]
        simp only [lookupTerm]
        by_cases hvu : v = u
        · subst hvu
          simp [if_neg h]
        · simp only [if_neg h, if_neg hvu]
          exact ih

theorem keys_map_addTerm (p : Poly) (t : Finset ℕ) (b : ℚ) :
    (p.map (fun tb => if tb.1 = t then (tb.1, tb.2 + b) else tb)).map Prod.fst
      = p.map Prod.fst := by
  induction p with
  | nil => rfl
  | cons tb rest ih =>
      obtain ⟨v, c⟩ := tb
      by_cases h : v = t <;> simp [h, ih]

theorem nodupKeys_addTerm (p : Poly) (t : Finset ℕ) (b : ℚ)
    (hp : nodupKeys p) : nodupKeys (addTerm p t b) := by
  unfold addTerm
  by_cases h : containsTerm p t
  · rw [if_pos h]
    unfold nodupKeys
    rw [keys_map_addTerm]
    exact hp
  · rw [if_neg h]
    unfold nodupKeys at hp ⊢
    rw [List.map_append]
    refine List.Nodup.append hp (List.nodup_singleton t) ?_
    intro u hu hv
    simp only [List.map_cons, List.map_nil, List.mem_singleton] at hv
    subst hv
    exact (lookupTerm_eq_none_iff u p).mp (lookupTerm_of_not_contains u p h) hu

theorem lookupTerm_addTerm (p : Poly) (t : Finset ℕ) (b : ℚ) (u : Finset ℕ) :
    lookupTerm u (addTerm p t b) =
      if t = u then
        match lookupTerm u p with
        | some c => some (c + b)
        | none => some b
      else lookupTerm u p := by
  unfold addTerm
  by_cases h : containsTerm p t
  · rw [if_pos h, lookupTerm_map_add]
    by_cases hu : u = t
    · subst hu
      rw [if_pos rfl, if_pos rfl]
      unfold containsTerm at h
      cases hcl : lookupTerm u p
      · rw [hcl] at h; simp at h
      · rfl
    · rw [if_neg hu, if_neg (fun he => hu he.symm)]
  · rw [if_neg h, lookupTerm_append]
    by_cases hu : t = u
    · subst hu
      rw [lookupTerm_of_not_contains t p h]
      simp [lookupTerm, lookupTerm_of_not_contains t p h]
    · rw [if_neg hu]
      have hut : t ≠ u := hu
      cases hcl : lookupTerm u p <;> simp [lookupTerm, hut, hcl]

theorem initTerms_go (entries : List (List ℕ × ℚ)) :
    ∀ acc : Poly, nodupKeys acc →
      nodupKeys (entries.foldl
          (fun acc tb => addTerm acc (asfrozenset tb.1) tb.2) acc) ∧
      ∀ t : Finset ℕ,
        lookupTerm t (entries.foldl
          (fun acc tb => addTerm acc (asfrozenset tb.1) tb.2) acc) =
        optAccum (lookupTerm t acc) (biasesFor entries t) := by
  induction entries with
  | nil =>
      intro acc hacc
      refine ⟨hacc, fun t => ?_⟩
      cases h : lookupTerm t acc <;> simp [biasesFor, optAccum, h]
  | cons e rest ih =>
      intro acc hacc
      obtain ⟨ihn, ihl⟩ := ih (addTerm acc (asfrozenset e.1) e.2)
        (nodupKeys_addTerm acc _ e.2 hacc)
      refine ⟨ihn, fun t => ?_⟩
      rw [List.foldl_cons, ihl t, lookupTerm_addTerm]
      by_cases he : asfrozenset e.1 = t
      · rw [if_pos he]
        have hb : biasesFor (e :: rest) t = e.2 :: biasesFor rest t := by
          unfold biasesFor
          rw [List.filter_cons_of_pos (by simp [he]), List.map_cons]
        rw [hb]
        cases hcl : lookupTerm t acc
        · show optAccum (some e.2) (biasesFor rest t) = _
          by_cases hl : biasesFor rest t = [] <;>
            simp [optAccum, hl, List.sum_cons]
        · show optAccum (some _) (biasesFor rest t) = _
          simp [optAccum, List.sum_cons, add_assoc]
      · rw [if_neg he]
        have hb : biasesFor (e :: rest) t = biasesFor rest t := by
          unfold biasesFor
          rw [List.filter_cons_of_neg (by simp [he])]
        rw [hb]

/-- C4: the constructor canonicalizes every term and aggregates repeated
canonical terms by summing their biases; the result has no duplicate terms,
and a term absent from the input is absent from the result. -/
theorem C4_init_aggregates :
    ∀ entries : List (List ℕ × ℚ),
      nodupKeys (initTerms entries) ∧
      ∀ t : Finset ℕ,
        lookupTerm t (initTerms entries) =
          if (biasesFor entries t).isEmpty then none
          else some (biasesFor entries t).sum := by
  intro entries
  obtain ⟨hn, hl⟩ := initTerms_go entries [] (by simp [nodupKeys])
  refine ⟨hn, fun t => ?_⟩
  rw [initTerms, hl t]
  show optAccum none (biasesFor entries t) = _
  cases hl2 : biasesFor entries t <;> simp [optAccum]

/-- C1: the spec says `degree` returns the size of the largest term (0 for an
empty polynomial).  The code instead takes `len` of `self._terms.values()` —
the biases, which are numbers — so every nonempty polynomial raises
`TypeError`.  At the failing input `{frozenset({'a'}): 2.0}` the code raises
(`none`) while the intended degree is `1`; only the empty polynomial agrees
with the spec. -/
theorem C1_degree_raises_on_nonempty :
    degree [({0}, (2 : ℚ))] = none ∧
    degreeSpec [({0}, (2 : ℚ))] = 1 ∧
    degree ([] : Poly) = some 0 := by
  refine ⟨rfl, ?_, rfl⟩
  simp [degreeSpec]

theorem zipWith_add_map_same {α : Type} (f g : α → ℚ) (l : List α) :
    List.zipWith (fun e c => e + c) (l.map f) (l.map g) =
      l.map (fun s => f s + g s) := by
  induction l with
  | nil => rfl
  | cons a l ih => simp [ih]

theorem energiesStep_map (samples : List (ℕ → ℚ)) (g : (ℕ → ℚ) → ℚ)
    (tb : Finset ℕ × ℚ) :
    energiesStep samples (samples.map g) tb =
      samples.map (fun s => g s + termContribution s tb) := by
  unfold energiesStep termContribution
  by_cases h : tb.1 = ∅
  · simp [h, List.map_map]
  · simp only [h, if_false]
    rw [zipWith_add_map_same]

theorem energies_foldl_map (p : Poly) (samples : List (ℕ → ℚ))
    (g : (ℕ → ℚ) → ℚ) :
    p.foldl (energiesStep samples) (samples.map g) =
      samples.map (fun s => g s + singleEnergy p s) := by
  induction p generalizing g with
  | nil => simp [singleEnergy]
  | cons tb rest ih =>
      rw [List.foldl_cons, energiesStep_map, ih]
      simp [singleEnergy, add_assoc]

/-- Batched energies agree with the per-sample sum of contributions. -/
theorem energies_eq_map_singleEnergy (p : Poly) (samples : List (ℕ → ℚ)) :
    energies p samples = samples.map (singleEnergy p) := by
  unfold energies
  rw [energies_foldl_map]
  simp

theorem energy_eq_singleEnergy (p : Poly) (s : ℕ → ℚ) :
    energy p s = some (singleEnergy p s) := by
  unfold energy
  rw [energies_eq_map_singleEnergy]
  rfl

/-- C5: the energy of an assignment is the sum over all terms of the bias
alone (empty term) or the bias times the product of the assigned values over
the term's variables; in particular the polynomial
`{(): 1.0, ('a',): 2.0, ('a','b'): -1.0}` at `a=1, b=-1` has energy `4.0`
(variables encoded as `a ↦ 0`, `b ↦ 1`). -/
theorem C5_energy_formula :
    (∀ (p : Poly) (s : ℕ → ℚ),
      energy p s =
        some ((p.map (fun tb =>
          if tb.1 = ∅ then tb.2 else tb.2 * tb.1.prod s)).sum)) ∧
    energy [(∅, 1), ({0}, 2), ({0, 1}, -1)]
        (fun v => if v = 0 then 1 else -1) = some 4 := by
  constructor
  · intro p s
    rw [energy_eq_singleEnergy]
    unfold singleEnergy termContribution
    congr 1
    refine congrArg List.sum (List.map_congr_left ?_)
    intro tb _
    by_cases h : tb.1 = ∅ <;> simp [h, mul_comm]
  · rw [energy_eq_singleEnergy]
    unfold singleEnergy termContribution
    norm_num [Finset.prod_insert, Finset.mem_singleton]

/-- C6: on a batch of `N` assignments, `energies` returns a vector of length
`N` whose `i`-th entry is what the single-assignment `energy` returns on the
`i`-th assignment alone; and single-assignment `energy` is the batched form
at `N = 1`, returning the scalar. -/
theorem C6_energies_elementwise :
    (∀ (p : Poly) (samples : List (ℕ → ℚ)),
      energies p samples = samples.map (fun s => (energy p s).getD 0)) ∧
    (∀ (p : Poly) (s : ℕ → ℚ),
      energies p [s] = [(energy p s).getD 0]) := by
  have h : ∀ (p : Poly) (samples : List (ℕ → ℚ)),
      energies p samples = samples.map (fun s => (energy p s).getD 0) := by
    intro p samples
    rw [energies_eq_map_singleEnergy]
    refine List.map_congr_left ?_
    intro s _
    rw [energy_eq_singleEnergy]
    rfl
  exact ⟨h, fun p s => by rw [h p [s]]; rfl⟩

/-- C2 (failing input): on `{('a',): 3.0, ('a','b'): 2.0}` with
`bias_range=3`, `poly_range=0.5` the higher-order update compares the bias
`2` against the **linear** extrema (`2 > lmax = 3` is false), so
`pmax` stays `0`, `inv_scalar = 1`, and `normalize` leaves the higher-order
bias at `2`, far outside `poly_range = (-0.5, 0.5)` — contradicting the
claim that afterwards all higher-order biases lie within `poly_range`. -/
theorem C2_normalize_misses_higher_order :
    lookupTerm {0, 1}
        (normalize [({0}, (3 : ℚ)), ({0, 1}, (2 : ℚ))]
          (Range.num 3) (some (Range.num (1 / 2))) ∅) = some 2 ∧
    ¬ ((2 : ℚ) ≤ 1 / 2) := by
  constructor
  · have he : extrema [({0}, (3 : ℚ)), ({0, 1}, (2 : ℚ))] = (0, 3, 0, 0) := by
      norm_num [extrema]
    have hi : invScalar [({0}, (3 : ℚ)), ({0, 1}, (2 : ℚ))]
        (parse_range (Range.num 3))
        (parse_range ((some (Range.num (1 / 2))).getD (Range.num 3))) = 1 := by
      rw [invScalar, he]
      norm_num [parse_range, pymax]
    rw [normalize, hi]
    norm_num [scale, lookupTerm]
    decide
  · norm_num

theorem scale_one (p : Poly) (ignored : Finset (Finset ℕ)) :
    scale p 1 ignored = p := by
  unfold scale
  induction p with
  | nil => rfl
  | cons tb rest ih =>
      rw [List.map_cons, ih]
      by_cases h : tb.1 ∈ ignored
      · rw [if_pos h]
      · rw [if_neg h, mul_one]

/-- C3 (counterexample): the polynomial `{('a',): 0.5}` has its only (linear)
bias well inside `bias_range = (-1, 1)`, yet `normalize(bias_range=1)` is not
a no-op: `inv_scalar = 0.5 ≠ 0`, so every bias is scaled **up** by 2. -/
theorem C3_counterexample_within_range_scaled :
    ((-1 : ℚ) ≤ 1 / 2 ∧ (1 : ℚ) / 2 ≤ 1) ∧
    normalize [({0}, (1 : ℚ) / 2)] (Range.num 1) none ∅ ≠
      [({0}, (1 : ℚ) / 2)] := by
  refine ⟨⟨by norm_num, by norm_num⟩, ?_⟩
  have hi : invScalar [({0}, (1 : ℚ) / 2)]
      (parse_range (Range.num 1))
      (parse_range ((none : Option Range).getD (Range.num 1))) = 1 / 2 := by
    norm_num [invScalar, extrema, parse_range, pymax]
  rw [normalize, hi]
  norm_num [scale, lookupTerm]

/-- C3 (amended): `normalize` performs no scaling exactly in the cases where
the computed `inv_scalar` is `0` (then `scale` is not called at all) or `1`
(then `scale(1)` multiplies every bias by `1`); biases that are merely within
their target ranges give `0 ≤ inv_scalar ≤ 1` and are scaled up by
`1/inv_scalar` whenever `0 < inv_scalar < 1`. -/
theorem C3_amended_normalize_identity (p : Poly) (bias_range : Range)
    (poly_range : Option Range) (ignored : Finset (Finset ℕ))
    (h : invScalar p (parse_range bias_range)
        (parse_range (poly_range.getD bias_range)) = 0 ∨
      invScalar p (parse_range bias_range)
        (parse_range (poly_range.getD bias_range)) = 1) :
    normalize p bias_range poly_range ignored = p := by
  unfold normalize
  rcases h with h | h
  · rw [h]
    simp
  · rw [h]
    norm_num [scale_one]

theorem C3_amended_normalize_identity_witness :
    (invScalar [({0}, (0 : ℚ))] (parse_range (Range.num 1))
        (parse_range ((none : Option Range).getD (Range.num 1))) = 0 ∨
      invScalar [({0}, (0 : ℚ))] (parse_range (Range.num 1))
        (parse_range ((none : Option Range).getD (Range.num 1))) = 1) ∧
    normalize [({0}, (0 : ℚ))] (Range.num 1) none ∅ = [({0}, (0 : ℚ))] :=
  ⟨Or.inl (by norm_num [invScalar, extrema, parse_range, pymax]),
   C3_amended_normalize_identity [({0}, (0 : ℚ))] (Range.num 1) none ∅
     (Or.inl (by norm_num [invScalar, extrema, parse_range, pymax]))⟩

/-- C9 (failing behaviour): `from_hubo` never yields a polynomial — with an
offset it raises `NameError` (`poly` referenced before assignment), without
one it returns `None` — so the claimed `to_hubo`/`from_hubo` round trip is
impossible. -/
theorem C9_from_hubo_broken :
    (∀ (H : List (List ℕ × ℚ)) (offset : ℚ),
        from_hubo H (some offset) = FromHuboResult.nameError) ∧
    (∀ H : List (List ℕ × ℚ), from_hubo H none = FromHuboResult.pyNone) :=
  ⟨fun _ _ => rfl, fun _ => rfl⟩

theorem split_fst_keys_sub (oS nS : Finset ℕ) (k : ℕ) (m : Mapping) (x : ℕ)
    (hx : x ∈ (splitMapping oS nS k m).1.map Prod.fst) :
    x ∈ m.map Prod.fst := by
  induction m generalizing k with
  | nil => simpa [splitMapping] using hx
  | cons hd rest ih =>
      obtain ⟨o, n⟩ := hd
      rw [splitMapping] at hx
      by_cases h1 : o = n
      · rw [if_pos h1] at hx
        exact List.mem_cons_of_mem _ (ih _ hx)
      · rw [if_neg h1] at hx
        by_cases h2 : o ∈ nS ∨ n ∈ oS
        · rw [if_pos h2] at hx
          rcases List.mem_cons.mp hx with hx | hx
          · exact List.mem_cons.mpr (Or.inl hx)
          · exact List.mem_cons_of_mem _ (ih _ hx)
        · rw [if_neg h2] at hx
          rcases List.mem_cons.mp hx with hx | hx
          · exact List.mem_cons.mpr (Or.inl hx)
          · exact List.mem_cons_of_mem _ (ih _ hx)

theorem split_fst_vals (oS nS : Finset ℕ) (k : ℕ) (m : Mapping) (x : ℕ)
    (hvals : ∀ pr ∈ m, Prod.snd pr ∈ nS)
    (hx : x ∈ (splitMapping oS nS k m).1.map Prod.snd) :
    (x ∈ nS ∧ x ∉ oS) ∨ k ≤ x := by
  induction m generalizing k with
  | nil => simp [splitMapping] at hx
  | cons hd rest ih =>
      obtain ⟨o, n⟩ := hd
      have hvals' : ∀ pr ∈ rest, Prod.snd pr ∈ nS :=
        fun pr hpr => hvals pr (List.mem_cons_of_mem _ hpr)
      rw [splitMapping] at hx
      by_cases h1 : o = n
      · rw [if_pos h1] at hx
        exact ih (k + 1) hvals' hx |>.imp id (fun h => le_of_lt (lt_of_lt_of_le (Nat.lt_succ_self k) h))
      · rw [if_neg h1] at hx
        by_cases h2 : o ∈ nS ∨ n ∈ oS
        · rw [if_pos h2, List.map_cons] at hx
          rcases List.mem_cons.mp hx with hx1 | hx1
          · exact Or.inr (by rw [hx1])
          · exact (ih (k + 1) hvals' hx1).imp id
              (fun h => le_of_lt (lt_of_lt_of_le (Nat.lt_succ_self k) h))
        · rw [if_neg h2, List.map_cons] at hx
          rcases List.mem_cons.mp hx with hx1 | hx1
          · refine Or.inl ⟨?_, ?_⟩
            · rw [hx1]
              exact hvals (o, n) (List.mem_cons_self _ _)
            · rw [hx1]
              exact fun hn => h2 (Or.inr hn)
          · exact (ih (k + 1) hvals' hx1).imp id
              (fun h => le_of_lt (lt_of_lt_of_le (Nat.lt_succ_self k) h))

theorem split_snd_keys (oS nS : Finset ℕ) (k : ℕ) (m : Mapping) (x : ℕ)
    (hx : x ∈ (splitMapping oS nS k m).2.map Prod.fst) : k ≤ x := by
  induction m generalizing k with
  | nil => simp [splitMapping] at hx
  | cons hd rest ih =>
      obtain ⟨o, n⟩ := hd
      rw [splitMapping] at hx
      by_cases h1 : o = n
      · rw [if_pos h1] at hx
        exact le_of_lt (lt_of_lt_of_le (Nat.lt_succ_self k) (ih (k + 1) hx))
      · rw [if_neg h1] at hx
        by_cases h2 : o ∈ nS ∨ n ∈ oS
        · rw [if_pos h2, List.map_cons] at hx
          rcases List.mem_cons.mp hx with hx1 | hx1
          · rw [hx1]
          · exact le_of_lt (lt_of_lt_of_le (Nat.lt_succ_self k)
              (ih (k + 1) hx1))
        · rw [if_neg h2] at hx
          exact le_of_lt (lt_of_lt_of_le (Nat.lt_succ_self k) (ih (k + 1) hx))

theorem split_snd_vals_sub (oS nS : Finset ℕ) (k : ℕ) (m : Mapping) (x : ℕ)
    (hx : x ∈ (splitMapping oS nS k m).2.map Prod.snd) :
    x ∈ m.map Prod.snd := by
  induction m generalizing k with
  | nil => simpa [splitMapping] using hx
  | cons hd rest ih =>
      obtain ⟨o, n⟩ := hd
      rw [splitMapping] at hx
      by_cases h1 : o = n
      · rw [if_pos h1] at hx
        exact List.mem_cons_of_mem _ (ih _ hx)
      · rw [if_neg h1] at hx
        by_cases h2 : o ∈ nS ∨ n ∈ oS
        · rw [if_pos h2, List.map_cons] at hx
          rcases List.mem_cons.mp hx with hx1 | hx1
          · rw [List.map_cons]
            exact List.mem_cons.mpr (Or.inl hx1)
          · rw [List.map_cons]
            exact List.mem_cons_of_mem _ (ih _ hx1)
        · rw [if_neg h2] at hx
          exact List.mem_cons_of_mem _ (ih _ hx)

theorem avoid_lt_counter (avoid : Finset ℕ) (x : ℕ) (hx : x ∈ avoid) :
    x < avoid.sup id + 1 :=
  Nat.lt_succ_of_le (Finset.le_sup (f := id) hx)

theorem resolve_fst_no_shared (m : Mapping) (avoid : Finset ℕ)
    (hk : mapKeys m ⊆ avoid) :
    mapKeys (resolve_label_conflict m avoid).1 ∩
      mapVals (resolve_label_conflict m avoid).1 = ∅ := by
  rw [Finset.eq_empty_iff_forall_not_mem]
  intro x hx
  rw [Finset.mem_inter] at hx
  obtain ⟨hx1, hx2⟩ := hx
  unfold mapKeys at hx1
  unfold mapVals at hx2
  rw [List.mem_toFinset] at hx1 hx2
  unfold resolve_label_conflict at hx1 hx2
  have hxk : x ∈ m.map Prod.fst := split_fst_keys_sub _ _ _ _ _ hx1
  have hxm : x ∈ mapKeys m := by unfold mapKeys; rwa [List.mem_toFinset]
  rcases split_fst_vals (mapKeys m) (mapVals m) _ m x
      (fun pr hpr => by
        unfold mapVals
        rw [List.mem_toFinset]
        exact List.mem_map.mpr ⟨pr, hpr, rfl⟩) hx2 with h | h
  · exact h.2 hxm
  · exact absurd (avoid_lt_counter avoid x (hk hxm)) (not_lt.mpr h)

theorem resolve_snd_no_shared (m : Mapping) (avoid : Finset ℕ)
    (hv : mapVals m ⊆ avoid) :
    mapKeys (resolve_label_conflict m avoid).2 ∩
      mapVals (resolve_label_conflict m avoid).2 = ∅ := by
  rw [Finset.eq_empty_iff_forall_not_mem]
  intro x hx
  rw [Finset.mem_inter] at hx
  obtain ⟨hx1, hx2⟩ := hx
  unfold mapKeys at hx1
  unfold mapVals at hx2
  rw [List.mem_toFinset] at hx1 hx2
  unfold resolve_label_conflict at hx1 hx2
  have h1 : avoid.sup id + 1 ≤ x := split_snd_keys _ _ _ _ _ hx1
  have h2 : x ∈ m.map Prod.snd := split_snd_vals_sub _ _ _ _ _ hx2
  have hxm : x ∈ mapVals m := by unfold mapVals; rwa [List.mem_toFinset]
  exact absurd (avoid_lt_counter avoid x (hv hxm)) (not_lt.mpr h1)

/-- C7: when some new label equals an existing variable that is not itself
relabeled away, `relabel_variables` raises the conflict `ValueError` during
the up-front check, before any mutation: the outcome carries an error and
the polynomial's term→bias dict is exactly as before. -/
theorem C7_relabel_conflict_error (p : Poly) (m : Mapping)
    (h : ∃ v ∈ mapVals m, v ∈ polyVars p ∧ v ∉ mapKeys m) :
    (relabel_variables p m).err.isSome ∧ (relabel_variables p m).poly = p := by
  rw [relabel_variables, if_pos h]
  exact ⟨rfl, rfl⟩

theorem C7_relabel_conflict_error_witness :
    (∃ v ∈ mapVals [(5, 0)], v ∈ polyVars [({0}, (1 : ℚ))] ∧
        v ∉ mapKeys [(5, 0)]) ∧
    (relabel_variables [({0}, (1 : ℚ))] [(5, 0)]).err.isSome ∧
    (relabel_variables [({0}, (1 : ℚ))] [(5, 0)]).poly = [({0}, (1 : ℚ))] :=
  ⟨by decide,
   (C7_relabel_conflict_error [({0}, (1 : ℚ))] [(5, 0)] (by decide)).1,
   (C7_relabel_conflict_error [({0}, (1 : ℚ))] [(5, 0)] (by decide)).2⟩

theorem mem_polyVars (v : ℕ) (p : Poly) :
    v ∈ polyVars p ↔ ∃ t ∈ p.map Prod.fst, v ∈ t := by
  induction p with
  | nil => simp [polyVars]
  | cons tb rest ih =>
      unfold polyVars at ih ⊢
      rw [List.foldr_cons, Finset.mem_union, ih, List.map_cons]
      constructor
      · rintro (hv | ⟨t, ht, hv⟩)
        · exact ⟨tb.1, List.mem_cons_self _ _, hv⟩
        · exact ⟨t, List.mem_cons_of_mem _ ht, hv⟩
      · rintro ⟨t, ht, hv⟩
        rcases List.mem_cons.mp ht with ht | ht
        · exact Or.inl (ht ▸ hv)
        · exact Or.inr ⟨t, ht, hv⟩

theorem key_subset_vars (p : Poly) (t : Finset ℕ)
    (ht : t ∈ p.map Prod.fst) : t ⊆ polyVars p :=
  fun v hv => (mem_polyVars v p).mpr ⟨t, ht, hv⟩

theorem image_ne_exists (f : ℕ → ℕ) (t : Finset ℕ)
    (h : t.image f ≠ t) : ∃ v ∈ t, f v ≠ v := by
  by_contra hc
  push_neg at hc
  exact h (by
    rw [Finset.image_congr (fun v hv => hc v hv)]
    exact Finset.image_id)

theorem image_eq_of_forall_eq (f : ℕ → ℕ) (t : Finset ℕ)
    (h : ∀ v ∈ t, f v = v) : t.image f = t := by
  rw [Finset.image_congr (fun v hv => h v hv)]
  exact Finset.image_id

theorem image_injOn_subsets (f : ℕ → ℕ) (V : Finset ℕ)
    (hf : ∀ u ∈ V, ∀ w ∈ V, f u = f w → u = w)
    (s t : Finset ℕ) (hs : s ⊆ V) (ht : t ⊆ V)
    (h : s.image f = t.image f) : s = t := by
  ext v
  constructor
  · intro hv
    have : f v ∈ t.image f := h ▸ Finset.mem_image_of_mem f hv
    obtain ⟨w, hw, hfw⟩ := Finset.mem_image.mp this
    rwa [hf w (ht hw) v (hs hv) hfw] at hw
  · intro hv
    have : f v ∈ s.image f := h.symm ▸ Finset.mem_image_of_mem f hv
    obtain ⟨w, hw, hfw⟩ := Finset.mem_image.mp this
    rwa [hf w (hs hw) v (ht hv) hfw] at hw

theorem lookupVar_eq_none_iff (v : ℕ) (m : Mapping) :
    lookupVar v m = none ↔ v ∉ m.map Prod.fst := by
  induction m with
  | nil => simp [lookupVar]
  | cons hd rest ih =>
      obtain ⟨o, n⟩ := hd
      simp only [lookupVar, List.map_cons, List.mem_cons]
      by_cases h : o = v
      · subst h
        simp
      · simp only [if_neg h, ih]
        constructor
        · intro hn hc
          rcases hc with hc | hc
          · exact h hc.symm
          · exact hn hc
        · intro hn hc
          exact hn (Or.inr hc)

theorem mem_of_lookupVar (v n : ℕ) (m : Mapping)
    (h : lookupVar v m = some n) : (v, n) ∈ m := by
  induction m with
  | nil => simp [lookupVar] at h
  | cons hd rest ih =>
      obtain ⟨o, c⟩ := hd
      simp only [lookupVar] at h
      by_cases ho : o = v
      · rw [if_pos ho] at h
        subst ho
        cases Option.some.inj h
        exact List.mem_cons_self _ _
      · rw [if_neg ho] at h
        exact List.mem_cons_of_mem _ (ih h)

theorem lookupVar_of_mem (v n : ℕ) (m : Mapping)
    (hm : (m.map Prod.fst).Nodup) (h : (v, n) ∈ m) :
    lookupVar v m = some n := by
  induction m with
  | nil => simp at h
  | cons hd rest ih =>
      obtain ⟨o, c⟩ := hd
      rcases List.mem_cons.mp h with h1 | h1
      · cases h1
        simp [lookupVar]
      · have ho : o ≠ v := by
          intro he
          have hmem : v ∈ rest.map Prod.fst :=
            List.mem_map.mpr ⟨(v, n), h1, rfl⟩
          have hnotin := (List.nodup_cons.mp hm).1
          rw [he] at hnotin
          exact hnotin hmem
        simp only [lookupVar, if_neg ho]
        exact ih (List.nodup_cons.mp hm).2 h1

/-- With duplicate-free values, two pairs sharing a value coincide. -/
theorem key_eq_of_val_eq (m : Mapping) (hv : (m.map Prod.snd).Nodup)
    (a a' c : ℕ) (h1 : (a, c) ∈ m) (h2 : (a', c) ∈ m) : a = a' := by
  induction m with
  | nil => simp at h1
  | cons hd rest ih =>
      obtain ⟨o, n⟩ := hd
      rcases List.mem_cons.mp h1 with e1 | e1 <;>
        rcases List.mem_cons.mp h2 with e2 | e2
      · cases e1
        cases e2
        rfl
      · cases e1
        exact absurd (List.mem_map.mpr ⟨(a', c), e2, rfl⟩)
          (List.nodup_cons.mp hv).1
      · cases e2
        exact absurd (List.mem_map.mpr ⟨(a, c), e1, rfl⟩)
          (List.nodup_cons.mp hv).1
      · exact ih (List.nodup_cons.mp hv).2 e1 e2

theorem mapVar_mem_vals (m : Mapping) (v : ℕ)
    (h : mapVar m v ≠ v) : v ∈ mapKeys m ∧ mapVar m v ∈ mapVals m := by
  unfold mapVar at h ⊢
  cases hcl : lookupVar v m with
  | none => rw [hcl] at h; simp at h
  | some n =>
      have hm := mem_of_lookupVar v n m hcl
      constructor
      · unfold mapKeys
        rw [List.mem_toFinset]
        exact List.mem_map.mpr ⟨(v, n), hm, rfl⟩
      · show n ∈ mapVals m
        unfold mapVals
        rw [List.mem_toFinset]
        exact List.mem_map.mpr ⟨(v, n), hm, rfl⟩

theorem mapVar_eq_self_of_not_mem (m : Mapping) (v : ℕ)
    (h : v ∉ mapKeys m) : mapVar m v = v := by
  unfold mapVar
  rw [(lookupVar_eq_none_iff v m).mpr (by
    intro hc
    apply h
    unfold mapKeys
    rwa [List.mem_toFinset])]
  rfl

/-- On a variable set disjoint from the mapping's values, `mapping.get(·, ·)`
is injective provided keys and values are duplicate-free. -/
theorem mapVar_injOn (m : Mapping) (V : Finset ℕ)
    (hk : (m.map Prod.fst).Nodup) (hv : (m.map Prod.snd).Nodup)
    (hdisj : ∀ x ∈ mapVals m, x ∉ V) :
    ∀ u ∈ V, ∀ w ∈ V, mapVar m u = mapVar m w → u = w := by
  intro u hu w hw he
  by_cases hum : u ∈ mapKeys m <;> by_cases hwm : w ∈ mapKeys m
  · unfold mapKeys at hum hwm
    rw [List.mem_toFinset] at hum hwm
    obtain ⟨⟨u1, nu⟩, hmu, hu1⟩ := List.mem_map.mp hum
    obtain ⟨⟨w1, nw⟩, hmw, hw1⟩ := List.mem_map.mp hwm
    dsimp at hu1 hw1
    rw [hu1] at hmu
    rw [hw1] at hmw
    have h1 : lookupVar u m = some nu := lookupVar_of_mem _ _ _ hk hmu
    have h2 : lookupVar w m = some nw := lookupVar_of_mem _ _ _ hk hmw
    unfold mapVar at he
    rw [h1, h2] at he
    simp only [Option.getD_some] at he
    subst he
    exact key_eq_of_val_eq m hv u w nu hmu hmw
  · have h2 : mapVar m w = w := mapVar_eq_self_of_not_mem m w hwm
    rw [h2] at he
    by_cases heq : mapVar m u = u
    · rw [← heq, he]
    · exact absurd (he ▸ hw) (hdisj _ (mapVar_mem_vals m u heq).2)
  · have h1 : mapVar m u = u := mapVar_eq_self_of_not_mem m u hum
    rw [h1] at he
    by_cases heq : mapVar m w = w
    · rw [he, heq]
    · exact absurd (he ▸ hu) (hdisj _ (mapVar_mem_vals m w heq).2)
  · rw [mapVar_eq_self_of_not_mem m u hum,
      mapVar_eq_self_of_not_mem m w hwm] at he
    exact he

theorem mapVar_eq_self_list (m : Mapping) (v : ℕ)
    (h : v ∉ m.map Prod.fst) : mapVar m v = v := by
  unfold mapVar
  rw [(lookupVar_eq_none_iff v m).mpr h]
  rfl

theorem mapVar_cases (m : Mapping) (v : ℕ) :
    mapVar m v = v ∨ mapVar m v ∈ m.map Prod.snd := by
  unfold mapVar
  cases hcl : lookupVar v m with
  | none => exact Or.inl rfl
  | some n =>
      exact Or.inr (List.mem_map.mpr ⟨(v, n), mem_of_lookupVar v n m hcl, rfl⟩)

theorem lookupVar_cons_ne (o n v : ℕ) (rest : Mapping) (h : o ≠ v) :
    lookupVar v ((o, n) :: rest) = lookupVar v rest := by
  simp only [lookupVar, if_neg h]

theorem split_fst_keys_sublist (oS nS : Finset ℕ) (k : ℕ) (m : Mapping) :
    ((splitMapping oS nS k m).1.map Prod.fst).Sublist (m.map Prod.fst) := by
  induction m generalizing k with
  | nil => simp [splitMapping]
  | cons hd rest ih =>
      obtain ⟨o, n⟩ := hd
      rw [splitMapping]
      by_cases h1 : o = n
      · rw [if_pos h1, List.map_cons]
        exact (ih (k + 1)).cons _
      · rw [if_neg h1]
        by_cases h2 : o ∈ nS ∨ n ∈ oS
        · rw [if_pos h2]
          exact (ih (k + 1)).cons₂ _
        · rw [if_neg h2]
          exact (ih (k + 1)).cons₂ _

theorem split_fst_keys_complete (oS nS : Finset ℕ) (k : ℕ) (m : Mapping)
    (o n : ℕ) (hm : (o, n) ∈ m) (hne : o ≠ n) :
    o ∈ (splitMapping oS nS k m).1.map Prod.fst := by
  induction m generalizing k with
  | nil => simp at hm
  | cons hd rest ih =>
      obtain ⟨o', n'⟩ := hd
      rw [splitMapping]
      rcases List.mem_cons.mp hm with he | he
      · injection he with ho hn
        subst ho
        subst hn
        rw [if_neg hne]
        by_cases h2 : o ∈ nS ∨ n ∈ oS
        · rw [if_pos h2, List.map_cons]
          exact List.mem_cons_self _ _
        · rw [if_neg h2, List.map_cons]
          exact List.mem_cons_self _ _
      · by_cases h1 : o' = n'
        · rw [if_pos h1]
          exact ih (k + 1) he
        · rw [if_neg h1]
          by_cases h2 : o' ∈ nS ∨ n' ∈ oS
          · rw [if_pos h2, List.map_cons]
            exact List.mem_cons_of_mem _ (ih (k + 1) he)
          · rw [if_neg h2, List.map_cons]
            exact List.mem_cons_of_mem _ (ih (k + 1) he)

theorem split_fst_mem_spec (oS nS : Finset ℕ) (k : ℕ) (m : Mapping)
    (a b : ℕ) (hab : (a, b) ∈ (splitMapping oS nS k m).1) :
    ∃ n, (a, n) ∈ m ∧ a ≠ n ∧
      (k ≤ b ∨ (b = n ∧ ¬(a ∈ nS ∨ n ∈ oS))) := by
  induction m generalizing k with
  | nil => simp [splitMapping] at hab
  | cons hd rest ih =>
      obtain ⟨o, n'⟩ := hd
      rw [splitMapping] at hab
      by_cases h1 : o = n'
      · rw [if_pos h1] at hab
        obtain ⟨n0, hn0, hne, hd0⟩ := ih (k + 1) hab
        exact ⟨n0, List.mem_cons_of_mem _ hn0, hne,
          hd0.imp (fun h => le_trans (Nat.le_succ k) h) id⟩
      · rw [if_neg h1] at hab
        by_cases h2 : o ∈ nS ∨ n' ∈ oS
        · rw [if_pos h2] at hab
          rcases List.mem_cons.mp hab with he | he
          · injection he with ho hb
            subst ho
            exact ⟨n', List.mem_cons_self _ _, h1, Or.inl hb.ge⟩
          · obtain ⟨n0, hn0, hne, hd0⟩ := ih (k + 1) he
            exact ⟨n0, List.mem_cons_of_mem _ hn0, hne,
              hd0.imp (fun h => le_trans (Nat.le_succ k) h) id⟩
        · rw [if_neg h2] at hab
          rcases List.mem_cons.mp hab with he | he
          · injection he with ho hb
            subst ho
            exact ⟨n', List.mem_cons_self _ _, h1, Or.inr ⟨hb, h2⟩⟩
          · obtain ⟨n0, hn0, hne, hd0⟩ := ih (k + 1) he
            exact ⟨n0, List.mem_cons_of_mem _ hn0, hne,
              hd0.imp (fun h => le_trans (Nat.le_succ k) h) id⟩

theorem split_snd_mem_spec (oS nS : Finset ℕ) (k : ℕ) (m : Mapping)
    (i v : ℕ) (hiv : (i, v) ∈ (splitMapping oS nS k m).2) :
    ∃ o, (o, v) ∈ m ∧ o ≠ v ∧ (o ∈ nS ∨ v ∈ oS) := by
  induction m generalizing k with
  | nil => simp [splitMapping] at hiv
  | cons hd rest ih =>
      obtain ⟨o, n'⟩ := hd
      rw [splitMapping] at hiv
      by_cases h1 : o = n'
      · rw [if_pos h1] at hiv
        obtain ⟨o0, ho0, hne, hc⟩ := ih (k + 1) hiv
        exact ⟨o0, List.mem_cons_of_mem _ ho0, hne, hc⟩
      · rw [if_neg h1] at hiv
        by_cases h2 : o ∈ nS ∨ n' ∈ oS
        · rw [if_pos h2] at hiv
          rcases List.mem_cons.mp hiv with he | he
          · injection he with hi hv
            subst hv
            exact ⟨o, List.mem_cons_self _ _, h1, h2⟩
          · obtain ⟨o0, ho0, hne, hc⟩ := ih (k + 1) he
            exact ⟨o0, List.mem_cons_of_mem _ ho0, hne, hc⟩
        · rw [if_neg h2] at hiv
          obtain ⟨o0, ho0, hne, hc⟩ := ih (k + 1) hiv
          exact ⟨o0, List.mem_cons_of_mem _ ho0, hne, hc⟩

theorem split_fst_vals_mem_or_fresh (oS nS : Finset ℕ) (k : ℕ) (m : Mapping)
    (x : ℕ) (hx : x ∈ (splitMapping oS nS k m).1.map Prod.snd) :
    x ∈ m.map Prod.snd ∨ k ≤ x := by
  induction m generalizing k with
  | nil => simp [splitMapping] at hx
  | cons hd rest ih =>
      obtain ⟨o, n⟩ := hd
      rw [splitMapping] at hx
      by_cases h1 : o = n
      · rw [if_pos h1] at hx
        rcases ih (k + 1) hx with h | h
        · exact Or.inl (by rw [List.map_cons]; exact List.mem_cons_of_mem _ h)
        · exact Or.inr (le_trans (Nat.le_succ k) h)
      · rw [if_neg h1] at hx
        by_cases h2 : o ∈ nS ∨ n ∈ oS
        · rw [if_pos h2, List.map_cons] at hx
          rcases List.mem_cons.mp hx with he | he
          · exact Or.inr (by rw [he])
          · rcases ih (k + 1) he with h | h
            · exact Or.inl
                (by rw [List.map_cons]; exact List.mem_cons_of_mem _ h)
            · exact Or.inr (le_trans (Nat.le_succ k) h)
        · rw [if_neg h2, List.map_cons] at hx
          rcases List.mem_cons.mp hx with he | he
          · exact Or.inl (by rw [List.map_cons, he]; exact List.mem_cons_self _ _)
          · rcases ih (k + 1) he with h | h
            · exact Or.inl
                (by rw [List.map_cons]; exact List.mem_cons_of_mem _ h)
            · exact Or.inr (le_trans (Nat.le_succ k) h)

theorem split_fst_vals_nodup (oS nS : Finset ℕ) (k : ℕ) (m : Mapping)
    (hv : (m.map Prod.snd).Nodup) (hlt : ∀ x ∈ m.map Prod.snd, x < k) :
    ((splitMapping oS nS k m).1.map Prod.snd).Nodup := by
  induction m generalizing k with
  | nil => simp [splitMapping]
  | cons hd rest ih =>
      obtain ⟨o, n⟩ := hd
      rw [List.map_cons] at hv hlt
      have hv' := (List.nodup_cons.mp hv).2
      have hlt' : ∀ x ∈ rest.map Prod.snd, x < k + 1 :=
        fun x hx => lt_trans (hlt x (List.mem_cons_of_mem _ hx)) (Nat.lt_succ_self k)
      rw [splitMapping]
      by_cases h1 : o = n
      · rw [if_pos h1]
        exact ih (k + 1) hv' hlt'
      · rw [if_neg h1]
        by_cases h2 : o ∈ nS ∨ n ∈ oS
        · rw [if_pos h2, List.map_cons]
          refine List.nodup_cons.mpr ⟨?_, ih (k + 1) hv' hlt'⟩
          intro hk
          rcases split_fst_vals_mem_or_fresh oS nS (k + 1) rest k hk with h | h
          · exact absurd (hlt k (List.mem_cons_of_mem _ h)) (lt_irrefl k)
          · exact absurd h (by simp)
        · rw [if_neg h2, List.map_cons]
          refine List.nodup_cons.mpr ⟨?_, ih (k + 1) hv' hlt'⟩
          intro hn
          rcases split_fst_vals_mem_or_fresh oS nS (k + 1) rest n hn with h | h
          · exact (List.nodup_cons.mp hv).1 h
          · exact absurd (hlt n (List.mem_cons_self _ _)) (not_lt.mpr (le_trans (Nat.le_succ k) h))

theorem split_snd_keys_nodup (oS nS : Finset ℕ) (k : ℕ) (m : Mapping) :
    ((splitMapping oS nS k m).2.map Prod.fst).Nodup := by
  induction m generalizing k with
  | nil => simp [splitMapping]
  | cons hd rest ih =>
      obtain ⟨o, n⟩ := hd
      rw [splitMapping]
      by_cases h1 : o = n
      · rw [if_pos h1]
        exact ih (k + 1)
      · rw [if_neg h1]
        by_cases h2 : o ∈ nS ∨ n ∈ oS
        · rw [if_pos h2, List.map_cons]
          refine List.nodup_cons.mpr ⟨?_, ih (k + 1)⟩
          intro hk
          exact absurd (split_snd_keys oS nS (k + 1) rest k hk) (by simp)
        · rw [if_neg h2]
          exact ih (k + 1)

theorem split_snd_vals_sublist (oS nS : Finset ℕ) (k : ℕ) (m : Mapping) :
    ((splitMapping oS nS k m).2.map Prod.snd).Sublist (m.map Prod.snd) := by
  induction m generalizing k with
  | nil => simp [splitMapping]
  | cons hd rest ih =>
      obtain ⟨o, n⟩ := hd
      rw [splitMapping]
      by_cases h1 : o = n
      · rw [if_pos h1, List.map_cons]
        exact (ih (k + 1)).cons _
      · rw [if_neg h1]
        by_cases h2 : o ∈ nS ∨ n ∈ oS
        · rw [if_pos h2]
          exact (ih (k + 1)).cons₂ _
        · rw [if_neg h2, List.map_cons]
          exact (ih (k + 1)).cons _

/-- `mapping.get` at the head key. -/
theorem mapVar_cons_self (o n : ℕ) (rest : Mapping) :
    mapVar ((o, n) :: rest) o = n := by
  unfold mapVar
  simp [lookupVar]

/-- `mapping.get` skips a non-matching head. -/
theorem mapVar_cons_ne (o n v : ℕ) (rest : Mapping) (h : o ≠ v) :
    mapVar ((o, n) :: rest) v = mapVar rest v := by
  unfold mapVar
  rw [lookupVar_cons_ne o n v rest h]

/-- Composing the two halves of the split reproduces the original mapping on
every label below the fresh-counter start. -/
theorem split_comp (oS nS : Finset ℕ) (m : Mapping) :
    ∀ (k v : ℕ), (m.map Prod.fst).Nodup →
      (∀ pr ∈ m, Prod.snd pr ∈ nS) →
      (∀ x ∈ nS, x < k) → v < k →
      mapVar (splitMapping oS nS k m).2
        (mapVar (splitMapping oS nS k m).1 v) = mapVar m v := by
  induction m with
  | nil => intro k v _ _ _ _; rfl
  | cons hd rest ih =>
      intro k v hk hns hlt hv
      obtain ⟨o, n⟩ := hd
      rw [List.map_cons] at hk
      have hnr : o ∉ rest.map Prod.fst := (List.nodup_cons.mp hk).1
      have hk' := (List.nodup_cons.mp hk).2
      have hns' : ∀ pr ∈ rest, Prod.snd pr ∈ nS :=
        fun pr hpr => hns pr (List.mem_cons_of_mem _ hpr)
      have hlt' : ∀ x ∈ nS, x < k + 1 :=
        fun x hx => lt_trans (hlt x hx) (Nat.lt_succ_self k)
      have hv' : v < k + 1 := lt_trans hv (Nat.lt_succ_self k)
      rw [splitMapping]
      by_cases h1 : o = n
      · rw [if_pos h1]
        by_cases hov : o = v
        · subst hov
          rw [mapVar_eq_self_list (splitMapping oS nS (k + 1) rest).1 o
              (fun hc =>
                hnr ((split_fst_keys_sublist oS nS (k + 1) rest).mem hc)),
            mapVar_eq_self_list (splitMapping oS nS (k + 1) rest).2 o
              (fun hc =>
                absurd (split_snd_keys oS nS (k + 1) rest o hc)
                  (not_le.mpr (lt_trans hv (Nat.lt_succ_self k)))),
            mapVar_cons_self, h1]
        · rw [mapVar_cons_ne o n v rest hov]
          exact ih (k + 1) v hk' hns' hlt' hv'
      · rw [if_neg h1]
        by_cases h2 : o ∈ nS ∨ n ∈ oS
        · rw [if_pos h2]
          by_cases hov : o = v
          · subst hov
            rw [show mapVar ((o, k) :: (splitMapping oS nS (k + 1) rest).1) o
                  = k from mapVar_cons_self o k _,
              show mapVar ((k, n) :: (splitMapping oS nS (k + 1) rest).2) k
                  = n from mapVar_cons_self k n _,
              show mapVar ((o, n) :: rest) o = n from mapVar_cons_self o n rest]
          · rw [mapVar_cons_ne o k v (splitMapping oS nS (k + 1) rest).1 hov]
            have hxk : mapVar (splitMapping oS nS (k + 1) rest).1 v ≠ k := by
              rcases mapVar_cases (splitMapping oS nS (k + 1) rest).1 v with
                h | h
              · rw [h]
                exact Nat.ne_of_lt hv
              · rcases split_fst_vals_mem_or_fresh oS nS (k + 1) rest _ h with
                  h' | h'
                · obtain ⟨pr, hpr, hpr2⟩ := List.mem_map.mp h'
                  have hin := hns' pr hpr
                  rw [hpr2] at hin
                  exact Nat.ne_of_lt (hlt _ hin)
                · exact Nat.ne_of_gt (Nat.lt_of_succ_le h')
            rw [mapVar_cons_ne k n
                (mapVar (splitMapping oS nS (k + 1) rest).1 v)
                (splitMapping oS nS (k + 1) rest).2
                (fun he => hxk he.symm),
              mapVar_cons_ne o n v rest hov]
            exact ih (k + 1) v hk' hns' hlt' hv'
        · rw [if_neg h2]
          by_cases hov : o = v
          · subst hov
            rw [show mapVar ((o, n) :: (splitMapping oS nS (k + 1) rest).1) o
                  = n from mapVar_cons_self o n _,
              mapVar_eq_self_list (splitMapping oS nS (k + 1) rest).2 n
                (fun hc =>
                  absurd (split_snd_keys oS nS (k + 1) rest n hc)
                    (not_le.mpr (lt_trans
                      (hlt n (hns (o, n) (List.mem_cons_self _ _)))
                      (Nat.lt_succ_self k)))),
              show mapVar ((o, n) :: rest) o = n from mapVar_cons_self o n rest]
          · rw [mapVar_cons_ne o n v (splitMapping oS nS (k + 1) rest).1 hov,
              mapVar_cons_ne o n v rest hov]
            exact ih (k + 1) v hk' hns' hlt' hv'

theorem containsTerm_false_of_not_mem (p : Poly) (t : Finset ℕ)
    (h : t ∉ p.map Prod.fst) : ¬ containsTerm p t = true := fun hc =>
  h ((lookupTerm_isSome_iff t p).mp hc)

theorem delItem_append (p q : Poly) (t : Finset ℕ) :
    delItem (p ++ q) t = delItem p t ++ delItem q t := by
  unfold delItem
  rw [List.filter_append]

/-- A changed entry: append the relabeled term, drop the old one. -/
theorem relabelStep_changed (m : Mapping) (cur : Poly) (e : Finset ℕ × ℚ)
    (hch : e.1.image (mapVar m) ≠ e.1)
    (hmem : e.1.image (mapVar m) ∉ cur.map Prod.fst) :
    relabelStep m cur e =
      delItem cur e.1 ++ [(e.1.image (mapVar m), e.2)] := by
  unfold relabelStep
  rw [if_pos hch]
  unfold setItem
  rw [if_neg (containsTerm_false_of_not_mem cur _ hmem), delItem_append]
  congr 1
  simp [delItem, hch]

/-- An unchanged entry leaves the dict alone. -/
theorem relabelStep_unchanged (m : Mapping) (cur : Poly) (e : Finset ℕ × ℚ)
    (hch : ¬ e.1.image (mapVar m) ≠ e.1) :
    relabelStep m cur e = cur := by
  unfold relabelStep
  rw [if_neg hch]

/-- Invariant of the relabeling loop over a snapshot `s` of entries, run on a
current dict `cur`: the loop (a) keeps keys duplicate-free, (b) gives every
changed entry's image its bias, (c) leaves every term unrelated to the
changed entries alone, and (d) ends with exactly the unchanged keys plus the
images of the changed keys. -/
theorem relabelGo_spec (m : Mapping) (s : Poly) :
    ∀ cur : Poly,
      nodupKeys cur →
      (s.map Prod.fst).Nodup →
      (∀ e ∈ s, lookupTerm e.1 cur = some e.2) →
      (∀ e ∈ s, e.1.image (mapVar m) ≠ e.1 →
        e.1.image (mapVar m) ∉ cur.map Prod.fst) →
      (∀ e ∈ s, ∀ e' ∈ s, e.1.image (mapVar m) ≠ e.1 →
        e'.1.image (mapVar m) ≠ e'.1 →
        e.1.image (mapVar m) = e'.1.image (mapVar m) → e.1 = e'.1) →
      nodupKeys (s.foldl (relabelStep m) cur) ∧
      (∀ e ∈ s, e.1.image (mapVar m) ≠ e.1 →
        lookupTerm (e.1.image (mapVar m)) (s.foldl (relabelStep m) cur)
          = some e.2) ∧
      (∀ u : Finset ℕ,
        (∀ t ∈ s.map Prod.fst, t.image (mapVar m) ≠ t →
          u ≠ t ∧ u ≠ t.image (mapVar m)) →
        lookupTerm u (s.foldl (relabelStep m) cur) = lookupTerm u cur) ∧
      (∀ u : Finset ℕ,
        u ∈ (s.foldl (relabelStep m) cur).map Prod.fst ↔
          ((u ∈ cur.map Prod.fst ∧
            ∀ t ∈ s.map Prod.fst, t.image (mapVar m) ≠ t → u ≠ t) ∨
          (∃ t ∈ s.map Prod.fst, t.image (mapVar m) ≠ t ∧
            u = t.image (mapVar m)))) := by
  induction s with
  | nil =>
      intro cur h1 _ _ _ _
      refine ⟨h1, by simp, fun u _ => rfl, fun u => ?_⟩
      simp
  | cons e s' ih =>
      intro cur h1 h2 h3 h4 h5
      rw [List.map_cons] at h2
      have h2' : (s'.map Prod.fst).Nodup := (List.nodup_cons.mp h2).2
      have hhead : e.1 ∉ s'.map Prod.fst := (List.nodup_cons.mp h2).1
      have hkeys_cur : ∀ t0 ∈ s'.map Prod.fst, t0 ∈ cur.map Prod.fst := by
        intro t0 ht0
        obtain ⟨e'', he'', he2⟩ := List.mem_map.mp ht0
        have hl := h3 e'' (List.mem_cons_of_mem _ he'')
        rw [he2] at hl
        exact List.mem_map.mpr ⟨(t0, e''.2), mem_of_lookupTerm _ _ _ hl, rfl⟩
      rw [List.foldl_cons]
      by_cases hch : e.1.image (mapVar m) ≠ e.1
      · -- changed head entry
        have hmem : e.1.image (mapVar m) ∉ cur.map Prod.fst :=
          h4 e (List.mem_cons_self _ _) hch
        have hstep := relabelStep_changed m cur e hch hmem
        rw [hstep]
        set t' := e.1.image (mapVar m) with htpdef
        set cur' := delItem cur e.1 ++ [(t', e.2)] with hcur'
        have hkeys' : cur'.map Prod.fst =
            (cur.map Prod.fst).filter (fun u => u ≠ e.1) ++ [t'] := by
          rw [hcur', List.map_append, keys_delItem]
          rfl
        have h1' : nodupKeys cur' := by
          unfold nodupKeys
          rw [hkeys']
          refine List.Nodup.append (List.Nodup.filter _ h1)
            (List.nodup_singleton _) ?_
          intro u hu hv
          rw [List.mem_singleton] at hv
          subst hv
          exact hmem (List.mem_of_mem_filter hu)
        have hkeymem : ∀ u : Finset ℕ, u ∈ cur'.map Prod.fst ↔
            (u ∈ cur.map Prod.fst ∧ u ≠ e.1) ∨ u = t' := by
          intro u
          rw [hkeys', List.mem_append, List.mem_filter, List.mem_singleton]
          constructor
          · rintro (⟨hm, hf⟩ | hm)
            · exact Or.inl ⟨hm, by simpa using hf⟩
            · exact Or.inr hm
          · rintro (⟨hm, hf⟩ | hm)
            · exact Or.inl ⟨hm, by simpa using hf⟩
            · exact Or.inr hm
        have hlook_other : ∀ u : Finset ℕ, u ≠ e.1 → u ≠ t' →
            lookupTerm u cur' = lookupTerm u cur := by
          intro u hu1 hu2
          rw [hcur', lookupTerm_append, lookupTerm_delItem, if_neg hu1]
          cases hcl : lookupTerm u cur with
          | none =>
              show lookupTerm u [(t', e.2)] = none
              simp only [lookupTerm]
              rw [if_neg (fun he => hu2 he.symm)]
          | some c => rfl
        have hlook_t' : lookupTerm t' cur' = some e.2 := by
          rw [hcur', lookupTerm_append, lookupTerm_delItem, if_neg hch,
            (lookupTerm_eq_none_iff _ cur).mpr hmem]
          show lookupTerm t' [(t', e.2)] = some e.2
          simp [lookupTerm]
        have himg_ne : ∀ t0 ∈ s'.map Prod.fst, t0.image (mapVar m) ≠ t0 →
            t' ≠ t0.image (mapVar m) := by
          intro t0 ht0 hch0 heq
          obtain ⟨e'', he'', he2⟩ := List.mem_map.mp ht0
          have := h5 e (List.mem_cons_self _ _) e''
            (List.mem_cons_of_mem _ he'') hch (he2 ▸ hch0)
            (by rw [htpdef, he2] at *; exact heq)
          rw [he2] at this
          exact hhead (this ▸ ht0)
        have ht'_ne_keys : ∀ t0 ∈ s'.map Prod.fst, t' ≠ t0 :=
          fun t0 ht0 heq => hmem (heq ▸ hkeys_cur t0 ht0)
        have h3' : ∀ e'' ∈ s', lookupTerm e''.1 cur' = some e''.2 := by
          intro e'' he''
          have ht2 : e''.1 ≠ e.1 := by
            intro heq
            exact hhead (heq ▸ List.mem_map.mpr ⟨e'', he'', rfl⟩)
          have hm2 : e''.1 ∈ cur.map Prod.fst :=
            hkeys_cur e''.1 (List.mem_map.mpr ⟨e'', he'', rfl⟩)
          rw [hlook_other e''.1 ht2 (fun heq => hmem (heq ▸ hm2))]
          exact h3 e'' (List.mem_cons_of_mem _ he'')
        have h4' : ∀ e'' ∈ s', e''.1.image (mapVar m) ≠ e''.1 →
            e''.1.image (mapVar m) ∉ cur'.map Prod.fst := by
          intro e'' he'' hch'' hc
          rcases (hkeymem _).mp hc with ⟨hm2, _⟩ | hm2
          · exact h4 e'' (List.mem_cons_of_mem _ he'') hch'' hm2
          · exact himg_ne e''.1 (List.mem_map.mpr ⟨e'', he'', rfl⟩) hch''
              hm2.symm
        have h5' : ∀ e'' ∈ s', ∀ e2 ∈ s',
            e''.1.image (mapVar m) ≠ e''.1 → e2.1.image (mapVar m) ≠ e2.1 →
            e''.1.image (mapVar m) = e2.1.image (mapVar m) → e''.1 = e2.1 :=
          fun e'' he'' e2 he2 => h5 e'' (List.mem_cons_of_mem _ he'')
            e2 (List.mem_cons_of_mem _ he2)
        obtain ⟨A, B, C, D⟩ := ih cur' h1' h2' h3' h4' h5'
        refine ⟨A, ?_, ?_, ?_⟩
        · -- (B) images get their biases
          intro e'' he'' hch''
          rcases List.mem_cons.mp he'' with he2 | he2
          · subst he2
            rw [C t' (fun t0 ht0 hch0 => ⟨ht'_ne_keys t0 ht0,
              himg_ne t0 ht0 hch0⟩)]
            exact hlook_t'
          · exact B e'' he2 hch''
        · -- (C) unrelated terms untouched
          intro u hu
          have hu_head := hu e.1 (List.mem_cons_self _ _) hch
          rw [C u (fun t0 ht0 => hu t0 (List.mem_cons_of_mem _ ht0))]
          exact hlook_other u hu_head.1 hu_head.2
        · -- (D) final key set
          intro u
          rw [D u]
          constructor
          · rintro (⟨hm2, hq⟩ | ⟨t0, ht0, hch0, himg⟩)
            · rcases (hkeymem u).mp hm2 with ⟨hmc, hne⟩ | heq
              · refine Or.inl ⟨hmc, ?_⟩
                intro t0 ht0 hch0
                rcases List.mem_cons.mp ht0 with h' | h'
                · exact h' ▸ hne
                · exact hq t0 h' hch0
              · exact Or.inr ⟨e.1, List.mem_cons_self _ _, hch, heq⟩
            · exact Or.inr ⟨t0, List.mem_cons_of_mem _ ht0, hch0, himg⟩
          · rintro (⟨hmc, hq⟩ | ⟨t0, ht0, hch0, himg⟩)
            · refine Or.inl ⟨(hkeymem u).mpr
                (Or.inl ⟨hmc, hq e.1 (List.mem_cons_self _ _) hch⟩), ?_⟩
              intro t0 ht0 hch0
              exact hq t0 (List.mem_cons_of_mem _ ht0) hch0
            · rcases List.mem_cons.mp ht0 with h' | h'
              · subst h'
                refine Or.inl ⟨(hkeymem u).mpr (Or.inr (by rw [himg])), ?_⟩
                intro t1 ht1 hch1
                rw [himg]
                exact ht'_ne_keys t1 ht1
              · exact Or.inr ⟨t0, h', hch0, himg⟩
      · -- unchanged head entry
        rw [relabelStep_unchanged m cur e hch]
        have heq : e.1.image (mapVar m) = e.1 := not_not.mp (by
          simpa using hch)
        obtain ⟨A, B, C, D⟩ := ih cur h1 h2'
          (fun e'' he'' => h3 e'' (List.mem_cons_of_mem _ he''))
          (fun e'' he'' => h4 e'' (List.mem_cons_of_mem _ he''))
          (fun e'' he'' e2 he2 => h5 e'' (List.mem_cons_of_mem _ he'')
            e2 (List.mem_cons_of_mem _ he2))
        refine ⟨A, ?_, ?_, ?_⟩
        · intro e'' he'' hch''
          rcases List.mem_cons.mp he'' with he2 | he2
          · exact absurd hch'' (he2 ▸ hch)
          · exact B e'' he2 hch''
        · intro u hu
          exact C u (fun t0 ht0 => hu t0 (List.mem_cons_of_mem _ ht0))
        · intro u
          rw [D u]
          constructor
          · rintro (⟨hmc, hq⟩ | ⟨t0, ht0, hch0, himg⟩)
            · refine Or.inl ⟨hmc, ?_⟩
              intro t0 ht0 hch0
              rcases List.mem_cons.mp ht0 with h' | h'
              · exact absurd (h' ▸ hch0) (by simpa [heq] using hch)
              · exact hq t0 h' hch0
            · exact Or.inr ⟨t0, List.mem_cons_of_mem _ ht0, hch0, himg⟩
          · rintro (⟨hmc, hq⟩ | ⟨t0, ht0, hch0, himg⟩)
            · exact Or.inl ⟨hmc,
                fun t0 ht0 hch0 => hq t0 (List.mem_cons_of_mem _ ht0) hch0⟩
            · rcases List.mem_cons.mp ht0 with h' | h'
              · exact absurd (h' ▸ hch0) (by simpa [heq] using hch)
              · exact Or.inr ⟨t0, h', hch0, himg⟩

/-- When old and new labels are disjoint (and the conflict check passes),
`relabel_variables` succeeds and renames every term pointwise. -/
theorem relabel_noshared_correct (p : Poly) (m : Mapping)
    (hp : nodupKeys p)
    (hk : (m.map Prod.fst).Nodup)
    (hv : (m.map Prod.snd).Nodup)
    (hnc : ∀ v ∈ mapVals m, v ∈ polyVars p → v ∈ mapKeys m)
    (hsh : ¬ (mapKeys m ∩ mapVals m).Nonempty) :
    (relabel_variables p m).err = none ∧
    nodupKeys (relabel_variables p m).poly ∧
    (∀ u : Finset ℕ,
      u ∈ (relabel_variables p m).poly.map Prod.fst ↔
        ∃ s ∈ p.map Prod.fst, u = s.image (mapVar m)) ∧
    (∀ s : Finset ℕ, s ⊆ polyVars p →
      lookupTerm (s.image (mapVar m)) (relabel_variables p m).poly
        = lookupTerm s p) := by
  have hcheck : ¬ ∃ v ∈ mapVals m, v ∈ polyVars p ∧ v ∉ mapKeys m := by
    rintro ⟨v, hvv, hvp, hvk⟩
    exact hvk (hnc v hvv hvp)
  have hdisj : ∀ x ∈ mapVals m, x ∉ polyVars p := by
    intro x hx hvp
    exact hsh ⟨x, Finset.mem_inter.mpr ⟨hnc x hx hvp, hx⟩⟩
  have hinj := mapVar_injOn m (polyVars p) hk hv hdisj
  have hsep : ∀ v ∈ polyVars p, mapVar m v ≠ v → mapVar m v ∉ polyVars p :=
    fun v _ hne => hdisj _ (mapVar_mem_vals m v hne).2
  have himg_not_in_vars : ∀ t : Finset ℕ, t ⊆ polyVars p →
      t.image (mapVar m) ≠ t → ∃ w ∈ t.image (mapVar m), w ∉ polyVars p := by
    intro t hts hch
    obtain ⟨v, hvt, hvne⟩ := image_ne_exists (mapVar m) t hch
    exact ⟨mapVar m v, Finset.mem_image_of_mem _ hvt,
      hsep v (hts hvt) hvne⟩
  have h3 : ∀ e ∈ p, lookupTerm e.1 p = some e.2 :=
    fun e he => lookupTerm_of_mem e.1 e.2 p hp he
  have h4 : ∀ e ∈ p, e.1.image (mapVar m) ≠ e.1 →
      e.1.image (mapVar m) ∉ p.map Prod.fst := by
    intro e he hch hc
    obtain ⟨w, hw, hwn⟩ := himg_not_in_vars e.1
      (key_subset_vars p e.1 (List.mem_map.mpr ⟨e, he, rfl⟩)) hch
    exact hwn (key_subset_vars p _ hc hw)
  have h5 : ∀ e ∈ p, ∀ e' ∈ p, e.1.image (mapVar m) ≠ e.1 →
      e'.1.image (mapVar m) ≠ e'.1 →
      e.1.image (mapVar m) = e'.1.image (mapVar m) → e.1 = e'.1 :=
    fun e he e' he' _ _ him => image_injOn_subsets (mapVar m) (polyVars p)
      hinj e.1 e'.1 (key_subset_vars p e.1 (List.mem_map.mpr ⟨e, he, rfl⟩))
      (key_subset_vars p e'.1 (List.mem_map.mpr ⟨e', he', rfl⟩)) him
  obtain ⟨A, B, C, D⟩ := relabelGo_spec m p p hp hp h3 h4 h5
  have hres : relabel_variables p m = ⟨relabelLoop p m, none⟩ := by
    rw [relabel_variables, if_neg hcheck, dif_neg hsh]
  rw [hres]
  refine ⟨rfl, A, ?_, ?_⟩
  · -- key set is the pointwise image
    intro u
    show u ∈ (p.foldl (relabelStep m) p).map Prod.fst ↔ _
    rw [D u]
    constructor
    · rintro (⟨hm2, hq⟩ | ⟨t0, ht0, hch0, himg⟩)
      · by_cases hchu : u.image (mapVar m) ≠ u
        · exact absurd rfl (hq u hm2 hchu)
        · exact ⟨u, hm2, (not_not.mp hchu).symm⟩
      · exact ⟨t0, ht0, himg⟩
    · rintro ⟨s0, hs0, himg⟩
      by_cases hchs : s0.image (mapVar m) ≠ s0
      · exact Or.inr ⟨s0, hs0, hchs, himg⟩
      · have heq := not_not.mp hchs
        rw [heq] at himg
        subst himg
        refine Or.inl ⟨hs0, ?_⟩
        intro t0 _ hch0 hut
        rw [hut] at heq
        exact hch0 heq
  · -- lookups are transported along the image
    intro s hsub
    show lookupTerm (s.image (mapVar m)) (p.foldl (relabelStep m) p)
      = lookupTerm s p
    by_cases hs : s ∈ p.map Prod.fst
    · obtain ⟨e, he, he1⟩ := List.mem_map.mp hs
      have hlp : lookupTerm s p = some e.2 := by
        rw [← he1]
        exact h3 e he
      by_cases hchs : s.image (mapVar m) ≠ s
      · rw [hlp, ← he1]
        exact B e he (he1 ▸ hchs)
      · have heq := not_not.mp hchs
        rw [heq]
        rw [C s ?_]
        intro t0 ht0 hch0
        constructor
        · intro hst
          rw [hst] at heq
          exact hch0 heq
        · intro hst
          obtain ⟨w, hw, hwn⟩ := himg_not_in_vars t0
            (key_subset_vars p t0 ht0) hch0
          rw [← hst] at hw
          exact hwn (hsub hw)
    · have hlp : lookupTerm s p = none := (lookupTerm_eq_none_iff s p).mpr hs
      have hnores : s.image (mapVar m) ∉
          (p.foldl (relabelStep m) p).map Prod.fst := by
        intro hc
        rcases (D _).mp hc with ⟨hm2, _⟩ | ⟨t0, ht0, hch0, himg⟩
        · by_cases hchs : s.image (mapVar m) ≠ s
          · obtain ⟨w, hw, hwn⟩ := himg_not_in_vars s hsub hchs
            exact hwn (key_subset_vars p _ hm2 hw)
          · exact hs ((not_not.mp hchs) ▸ hm2)
        · exact hs ((image_injOn_subsets (mapVar m) (polyVars p) hinj s t0
            hsub (key_subset_vars p t0 ht0) himg) ▸ ht0)
      rw [hlp, (lookupTerm_eq_none_iff _ _).mpr hnores]

theorem vars_iff_of_keys_iff (q p : Poly) (g : ℕ → ℕ)
    (h : ∀ u : Finset ℕ,
      u ∈ q.map Prod.fst ↔ ∃ s ∈ p.map Prod.fst, u = s.image g) :
    ∀ w, w ∈ polyVars q ↔ ∃ x ∈ polyVars p, w = g x := by
  intro w
  rw [mem_polyVars]
  constructor
  · rintro ⟨u, hu, hw⟩
    obtain ⟨s, hs, hse⟩ := (h u).mp hu
    rw [hse] at hw
    obtain ⟨x, hx, hxe⟩ := Finset.mem_image.mp hw
    exact ⟨x, (mem_polyVars x p).mpr ⟨s, hs, hx⟩, hxe.symm⟩
  · rintro ⟨x, hx, hw⟩
    obtain ⟨s, hs, hxs⟩ := (mem_polyVars x p).mp hx
    exact ⟨s.image g, (h _).mpr ⟨s, hs, rfl⟩,
      hw ▸ Finset.mem_image_of_mem g hxs⟩

/-- The shared-labels branch: given full correctness for conflict-free
mappings, the two-stage pass through intermediates is correct as well. -/
theorem relabel_shared_step (p : Poly) (m : Mapping)
    (hp : nodupKeys p)
    (hk : (m.map Prod.fst).Nodup)
    (hv : (m.map Prod.snd).Nodup)
    (hnc : ∀ v ∈ mapVals m, v ∈ polyVars p → v ∈ mapKeys m)
    (hsh : (mapKeys m ∩ mapVals m).Nonempty)
    (IH : ∀ (p' : Poly) (m' : Mapping),
      (mapKeys m' ∩ mapVals m').card = 0 →
      nodupKeys p' →
      (m'.map Prod.fst).Nodup →
      (m'.map Prod.snd).Nodup →
      (∀ v ∈ mapVals m', v ∈ polyVars p' → v ∈ mapKeys m') →
      (relabel_variables p' m').err = none ∧
      nodupKeys (relabel_variables p' m').poly ∧
      (∀ u : Finset ℕ,
        u ∈ (relabel_variables p' m').poly.map Prod.fst ↔
          ∃ s ∈ p'.map Prod.fst, u = s.image (mapVar m')) ∧
      (∀ s : Finset ℕ, s ⊆ polyVars p' →
        lookupTerm (s.image (mapVar m')) (relabel_variables p' m').poly
          = lookupTerm s p')) :
    (relabel_variables p m).err = none ∧
    nodupKeys (relabel_variables p m).poly ∧
    (∀ u : Finset ℕ,
      u ∈ (relabel_variables p m).poly.map Prod.fst ↔
        ∃ s ∈ p.map Prod.fst, u = s.image (mapVar m)) ∧
    (∀ s : Finset ℕ, s ⊆ polyVars p →
      lookupTerm (s.image (mapVar m)) (relabel_variables p m).poly
        = lookupTerm s p) := by
  have hcheck : ¬ ∃ v ∈ mapVals m, v ∈ polyVars p ∧ v ∉ mapKeys m := by
    rintro ⟨v, hvv, hvp, hvk⟩
    exact hvk (hnc v hvv hvp)
  have hKav : mapKeys m ⊆ mapKeys m ∪ mapVals m ∪ polyVars p :=
    fun x hx => Finset.mem_union_left _ (Finset.mem_union_left _ hx)
  have hVav : mapVals m ⊆ mapKeys m ∪ mapVals m ∪ polyVars p :=
    fun x hx => Finset.mem_union_left _ (Finset.mem_union_right _ hx)
  have hPav : polyVars p ⊆ mapKeys m ∪ mapVals m ∪ polyVars p :=
    fun x hx => Finset.mem_union_right _ hx
  have hVlt : ∀ x ∈ mapVals m,
      x < (mapKeys m ∪ mapVals m ∪ polyVars p).sup id + 1 :=
    fun x hx => avoid_lt_counter _ x (hVav hx)
  have hPlt : ∀ x ∈ polyVars p,
      x < (mapKeys m ∪ mapVals m ∪ polyVars p).sup id + 1 :=
    fun x hx => avoid_lt_counter _ x (hPav hx)
  have hVlt' : ∀ x ∈ m.map Prod.snd,
      x < (mapKeys m ∪ mapVals m ∪ polyVars p).sup id + 1 :=
    fun x hx => hVlt x (List.mem_toFinset.mpr hx)
  have htauto : ∀ pr ∈ m, Prod.snd pr ∈ mapVals m :=
    fun pr hpr => List.mem_toFinset.mpr (List.mem_map.mpr ⟨pr, hpr, rfl⟩)
  -- the split, with fresh labels past `avoid`
  have hm1eq : (resolve_label_conflict m
      (mapKeys m ∪ mapVals m ∪ polyVars p)).1 =
    (splitMapping (mapKeys m) (mapVals m)
      ((mapKeys m ∪ mapVals m ∪ polyVars p).sup id + 1) m).1 := rfl
  have hm2eq : (resolve_label_conflict m
      (mapKeys m ∪ mapVals m ∪ polyVars p)).2 =
    (splitMapping (mapKeys m) (mapVals m)
      ((mapKeys m ∪ mapVals m ∪ polyVars p).sup id + 1) m).2 := rfl
  -- properties of the first-stage mapping
  have hk1 : ((resolve_label_conflict m
      (mapKeys m ∪ mapVals m ∪ polyVars p)).1.map Prod.fst).Nodup := by
    rw [hm1eq]
    exact (split_fst_keys_sublist _ _ _ m).nodup hk
  have hv1 : ((resolve_label_conflict m
      (mapKeys m ∪ mapVals m ∪ polyVars p)).1.map Prod.snd).Nodup := by
    rw [hm1eq]
    exact split_fst_vals_nodup _ _ _ m hv hVlt'
  have hnc1 : ∀ v ∈ mapVals (resolve_label_conflict m
      (mapKeys m ∪ mapVals m ∪ polyVars p)).1,
      v ∈ polyVars p → v ∈ mapKeys (resolve_label_conflict m
        (mapKeys m ∪ mapVals m ∪ polyVars p)).1 := by
    intro v hvv hvp
    exfalso
    have hvl : v ∈ (resolve_label_conflict m
        (mapKeys m ∪ mapVals m ∪ polyVars p)).1.map Prod.snd :=
      List.mem_toFinset.mp hvv
    rw [hm1eq] at hvl
    rcases split_fst_vals _ _ _ m v htauto hvl with ⟨hV, hnK⟩ | hge
    · exact hnK (hnc v hV hvp)
    · exact absurd (hPlt v hvp) (not_lt.mpr hge)
  have hcard1 : (mapKeys (resolve_label_conflict m
      (mapKeys m ∪ mapVals m ∪ polyVars p)).1 ∩
      mapVals (resolve_label_conflict m
        (mapKeys m ∪ mapVals m ∪ polyVars p)).1).card = 0 :=
    Finset.card_eq_zero.mpr (resolve_fst_no_shared m _ hKav)
  obtain ⟨R1e, R1n, R1k, R1l⟩ := IH p _ hcard1 hp hk1 hv1 hnc1
  have hvarq1 := vars_iff_of_keys_iff _ p _ R1k
  -- properties of the second-stage mapping, over the intermediate polynomial
  have hk2 : ((resolve_label_conflict m
      (mapKeys m ∪ mapVals m ∪ polyVars p)).2.map Prod.fst).Nodup := by
    rw [hm2eq]
    exact split_snd_keys_nodup _ _ _ m
  have hv2 : ((resolve_label_conflict m
      (mapKeys m ∪ mapVals m ∪ polyVars p)).2.map Prod.snd).Nodup := by
    rw [hm2eq]
    exact (split_snd_vals_sublist _ _ _ m).nodup hv
  have hnoid1 : ∀ y v : ℕ, (y, v) ∈ (resolve_label_conflict m
      (mapKeys m ∪ mapVals m ∪ polyVars p)).1 → y ∈ polyVars p → y ≠ v := by
    intro y v hyv hyp heq
    subst heq
    rw [hm1eq] at hyv
    obtain ⟨n0, _, hn0, hd⟩ := split_fst_mem_spec _ _ _ m y y hyv
    rcases hd with h | ⟨h, _⟩
    · exact absurd (hPlt y hyp) (not_lt.mpr h)
    · exact hn0 h
  have hnc2 : ∀ v ∈ mapVals (resolve_label_conflict m
      (mapKeys m ∪ mapVals m ∪ polyVars p)).2,
      v ∈ polyVars (relabel_variables p (resolve_label_conflict m
        (mapKeys m ∪ mapVals m ∪ polyVars p)).1).poly →
      v ∈ mapKeys (resolve_label_conflict m
        (mapKeys m ∪ mapVals m ∪ polyVars p)).2 := by
    intro v hvv hvq
    exfalso
    obtain ⟨pr, hpr, hpr2⟩ := List.mem_map.mp (List.mem_toFinset.mp hvv)
    have hprm2 : (pr.1, v) ∈ (resolve_label_conflict m
        (mapKeys m ∪ mapVals m ∪ polyVars p)).2 := by
      rw [← hpr2]
      exact hpr
    rw [hm2eq] at hprm2
    obtain ⟨o, hov, hone, hconf⟩ := split_snd_mem_spec _ _ _ m pr.1 v hprm2
    obtain ⟨x, hxp, hxv⟩ := (hvarq1 v).mp hvq
    by_cases hx1 : mapVar (resolve_label_conflict m
        (mapKeys m ∪ mapVals m ∪ polyVars p)).1 x = x
    · -- v = x is an original variable; it must have been relabeled away
      rw [hx1] at hxv
      subst hxv
      have hvV : v ∈ mapVals m :=
        List.mem_toFinset.mpr (List.mem_map.mpr ⟨(o, v), hov, rfl⟩)
      have hvK := hnc v hvV hxp
      obtain ⟨pr2, hpr2m, hpr2f⟩ := List.mem_map.mp (List.mem_toFinset.mp hvK)
      have hpm : (v, pr2.2) ∈ m := by
        rw [← hpr2f]
        exact hpr2m
      by_cases hn1 : pr2.2 = v
      · rw [hn1] at hpm
        exact hone (key_eq_of_val_eq m hv o v v hov hpm)
      · have hkm1 : v ∈ (resolve_label_conflict m
            (mapKeys m ∪ mapVals m ∪ polyVars p)).1.map Prod.fst := by
          rw [hm1eq]
          exact split_fst_keys_complete _ _ _ m v pr2.2 hpm
            (fun he => hn1 he.symm)
        cases hcl : lookupVar v (resolve_label_conflict m
            (mapKeys m ∪ mapVals m ∪ polyVars p)).1 with
        | none => exact absurd hcl ((not_iff_not.mpr
            (lookupVar_eq_none_iff v _)).mpr (not_not.mpr hkm1))
        | some y =>
            have hmem := mem_of_lookupVar _ _ _ hcl
            have hne := hnoid1 v y hmem hxp
            have : mapVar (resolve_label_conflict m
                (mapKeys m ∪ mapVals m ∪ polyVars p)).1 v = y := by
              unfold mapVar
              rw [hcl]
              rfl
            rw [this] at hx1
            exact hne hx1.symm
    · -- v is the intermediate image of x; impossible for a conflicting value
      have hsome : lookupVar x (resolve_label_conflict m
          (mapKeys m ∪ mapVals m ∪ polyVars p)).1 = some v := by
        cases hcl : lookupVar x (resolve_label_conflict m
            (mapKeys m ∪ mapVals m ∪ polyVars p)).1 with
        | none =>
            exfalso
            apply hx1
            unfold mapVar
            rw [hcl]
            rfl
        | some y =>
            have : mapVar (resolve_label_conflict m
                (mapKeys m ∪ mapVals m ∪ polyVars p)).1 x = y := by
              unfold mapVar
              rw [hcl]
              rfl
            rw [this] at hxv
            rw [hxv]
      have hxm1 : (x, v) ∈ (resolve_label_conflict m
          (mapKeys m ∪ mapVals m ∪ polyVars p)).1 :=
        mem_of_lookupVar _ _ _ hsome
      rw [hm1eq] at hxm1
      obtain ⟨n0, hn0m, hxn0, hd2⟩ := split_fst_mem_spec _ _ _ m x v hxm1
      have hvV : v ∈ mapVals m :=
        List.mem_toFinset.mpr (List.mem_map.mpr ⟨(o, v), hov, rfl⟩)
      rcases hd2 with h | ⟨hvn0, hnconf⟩
      · exact absurd (hVlt v hvV) (not_lt.mpr h)
      · rw [← hvn0] at hn0m
        have hxo := key_eq_of_val_eq m hv x o v hn0m hov
        rw [← hvn0] at hnconf
        rw [hxo] at hnconf
        exact hnconf hconf
  have hcard2 : (mapKeys (resolve_label_conflict m
      (mapKeys m ∪ mapVals m ∪ polyVars p)).2 ∩
      mapVals (resolve_label_conflict m
        (mapKeys m ∪ mapVals m ∪ polyVars p)).2).card = 0 :=
    Finset.card_eq_zero.mpr (resolve_snd_no_shared m _ hVav)
  obtain ⟨R2e, R2n, R2k, R2l⟩ := IH _ _ hcard2 R1n hk2 hv2 hnc2
  -- pointwise composition of the two stages
  have hcomp : ∀ x ∈ polyVars p,
      mapVar (resolve_label_conflict m
        (mapKeys m ∪ mapVals m ∪ polyVars p)).2
        (mapVar (resolve_label_conflict m
          (mapKeys m ∪ mapVals m ∪ polyVars p)).1 x) = mapVar m x := by
    intro x hx
    rw [hm1eq, hm2eq]
    exact split_comp (mapKeys m) (mapVals m) m _ x hk htauto hVlt (hPlt x hx)
  have himage : ∀ s : Finset ℕ, s ⊆ polyVars p →
      (s.image (mapVar (resolve_label_conflict m
        (mapKeys m ∪ mapVals m ∪ polyVars p)).1)).image
        (mapVar (resolve_label_conflict m
          (mapKeys m ∪ mapVals m ∪ polyVars p)).2)
      = s.image (mapVar m) := by
    intro s hs
    rw [Finset.image_image]
    exact Finset.image_congr (fun x hx => hcomp x (hs hx))
  -- the recursive unfolding of `relabel_variables`
  have hres : relabel_variables p m = relabel_variables
      (relabel_variables p (resolve_label_conflict m
        (mapKeys m ∪ mapVals m ∪ polyVars p)).1).poly
      (resolve_label_conflict m
        (mapKeys m ∪ mapVals m ∪ polyVars p)).2 := by
    rw [relabel_variables, if_neg hcheck, dif_pos hsh]
    simp only [R1e]
  rw [hres]
  refine ⟨R2e, R2n, ?_, ?_⟩
  · intro u
    rw [R2k u]
    constructor
    · rintro ⟨s1, hs1, himg1⟩
      obtain ⟨s, hs, hseq⟩ := (R1k s1).mp hs1
      refine ⟨s, hs, ?_⟩
      rw [himg1, hseq, himage s (key_subset_vars p s hs)]
    · rintro ⟨s, hs, hseq⟩
      refine ⟨s.image (mapVar (resolve_label_conflict m
        (mapKeys m ∪ mapVals m ∪ polyVars p)).1),
        (R1k _).mpr ⟨s, hs, rfl⟩, ?_⟩
      rw [hseq, himage s (key_subset_vars p s hs)]
  · intro s hsub
    have hs1sub : s.image (mapVar (resolve_label_conflict m
        (mapKeys m ∪ mapVals m ∪ polyVars p)).1) ⊆
        polyVars (relabel_variables p (resolve_label_conflict m
          (mapKeys m ∪ mapVals m ∪ polyVars p)).1).poly := by
      intro w hw
      obtain ⟨x, hx, hxe⟩ := Finset.mem_image.mp hw
      exact (hvarq1 w).mpr ⟨x, hsub hx, hxe.symm⟩
    rw [← himage s hsub, R2l _ hs1sub, R1l s hsub]

/-- Full correctness of `relabel_variables` under the conflict-freeness
check: no error, duplicate-free keys, and the term→bias dict is exactly the
pointwise image of the original under `mapping.get`. -/
theorem relabel_correct (p : Poly) (m : Mapping)
    (hp : nodupKeys p)
    (hk : (m.map Prod.fst).Nodup)
    (hv : (m.map Prod.snd).Nodup)
    (hnc : ∀ v ∈ mapVals m, v ∈ polyVars p → v ∈ mapKeys m) :
    (relabel_variables p m).err = none ∧
    nodupKeys (relabel_variables p m).poly ∧
    (∀ u : Finset ℕ,
      u ∈ (relabel_variables p m).poly.map Prod.fst ↔
        ∃ s ∈ p.map Prod.fst, u = s.image (mapVar m)) ∧
    (∀ s : Finset ℕ, s ⊆ polyVars p →
      lookupTerm (s.image (mapVar m)) (relabel_variables p m).poly
        = lookupTerm s p) := by
  have haux : ∀ (n : ℕ) (p' : Poly) (m' : Mapping),
      (mapKeys m' ∩ mapVals m').card ≤ n →
      nodupKeys p' →
      (m'.map Prod.fst).Nodup →
      (m'.map Prod.snd).Nodup →
      (∀ v ∈ mapVals m', v ∈ polyVars p' → v ∈ mapKeys m') →
      (relabel_variables p' m').err = none ∧
      nodupKeys (relabel_variables p' m').poly ∧
      (∀ u : Finset ℕ,
        u ∈ (relabel_variables p' m').poly.map Prod.fst ↔
          ∃ s ∈ p'.map Prod.fst, u = s.image (mapVar m')) ∧
      (∀ s : Finset ℕ, s ⊆ polyVars p' →
        lookupTerm (s.image (mapVar m')) (relabel_variables p' m').poly
          = lookupTerm s p') := by
    intro n
    induction n with
    | zero =>
        intro p' m' hcard hp' hk' hv' hnc'
        have hsh : ¬ (mapKeys m' ∩ mapVals m').Nonempty := by
          intro h
          have := Finset.card_pos.mpr h
          omega
        exact relabel_noshared_correct p' m' hp' hk' hv' hnc' hsh
    | succ n ihn =>
        intro p' m' hcard hp' hk' hv' hnc'
        by_cases hsh : (mapKeys m' ∩ mapVals m').Nonempty
        · exact relabel_shared_step p' m' hp' hk' hv' hnc' hsh
            (fun p2 m2 hc2 => ihn p2 m2 (by omega))
        · exact relabel_noshared_correct p' m' hp' hk' hv' hnc' hsh
  exact haux (mapKeys m ∩ mapVals m).card p m (le_refl _) hp hk hv hnc

theorem swap_map_fst (m : Mapping) :
    (m.map Prod.swap).map Prod.fst = m.map Prod.snd := by
  rw [List.map_map]
  exact List.map_congr_left (fun a _ => rfl)

theorem swap_map_snd (m : Mapping) :
    (m.map Prod.swap).map Prod.snd = m.map Prod.fst := by
  rw [List.map_map]
  exact List.map_congr_left (fun a _ => rfl)

/-- The inverse mapping undoes the mapping on every variable, provided keys
and values are duplicate-free and the conflict check passes. -/
theorem roundtrip_mapVar (p : Poly) (m : Mapping)
    (hk : (m.map Prod.fst).Nodup) (hv : (m.map Prod.snd).Nodup)
    (hnc : ∀ v ∈ mapVals m, v ∈ polyVars p → v ∈ mapKeys m) :
    ∀ x ∈ polyVars p, mapVar (m.map Prod.swap) (mapVar m x) = x := by
  intro x hx
  by_cases hxm : x ∈ m.map Prod.fst
  · cases hcl : lookupVar x m with
    | none => exact absurd ((lookupVar_eq_none_iff x m).mp hcl) (not_not.mpr hxm)
    | some n =>
        have hmem := mem_of_lookupVar x n m hcl
        have hswap : (n, x) ∈ m.map Prod.swap :=
          List.mem_map.mpr ⟨(x, n), hmem, rfl⟩
        have hkswap : ((m.map Prod.swap).map Prod.fst).Nodup := by
          rw [swap_map_fst]
          exact hv
        have hmx : mapVar m x = n := by
          unfold mapVar
          rw [hcl]
          rfl
        rw [hmx]
        unfold mapVar
        rw [lookupVar_of_mem n x (m.map Prod.swap) hkswap hswap]
        rfl
  · rw [mapVar_eq_self_list m x hxm]
    apply mapVar_eq_self_list
    rw [swap_map_fst]
    intro hc
    exact hxm (List.mem_toFinset.mp
      (hnc x (List.mem_toFinset.mpr hc) hx))

/-- C8: relabeling by an injective mapping of the polynomial's variables and
then by its inverse succeeds both times (conflicting overlaps, such as swaps
and cycles, are routed through fresh intermediate labels) and reproduces the
original term→bias mapping exactly. -/
theorem C8_relabel_roundtrip (p : Poly) (m : Mapping)
    (hp : nodupKeys p)
    (hk : (m.map Prod.fst).Nodup)
    (hv : (m.map Prod.snd).Nodup)
    (hdom : ∀ x ∈ mapKeys m, x ∈ polyVars p)
    (hnc : ∀ v ∈ mapVals m, v ∈ polyVars p → v ∈ mapKeys m) :
    (relabel_variables p m).err = none ∧
    (relabel_variables (relabel_variables p m).poly (m.map Prod.swap)).err
      = none ∧
    (∀ t : Finset ℕ,
      lookupTerm t (relabel_variables (relabel_variables p m).poly
        (m.map Prod.swap)).poly = lookupTerm t p) := by
  obtain ⟨R1e, R1n, R1k, R1l⟩ := relabel_correct p m hp hk hv hnc
  have hvarq1 := vars_iff_of_keys_iff _ p _ R1k
  have hkS : ((m.map Prod.swap).map Prod.fst).Nodup := by
    rw [swap_map_fst]
    exact hv
  have hvS : ((m.map Prod.swap).map Prod.snd).Nodup := by
    rw [swap_map_snd]
    exact hk
  have hncS : ∀ v ∈ mapVals (m.map Prod.swap),
      v ∈ polyVars (relabel_variables p m).poly →
      v ∈ mapKeys (m.map Prod.swap) := by
    intro v hvv hvq
    have hgoal : v ∈ m.map Prod.snd → v ∈ mapKeys (m.map Prod.swap) := by
      intro hvs
      unfold mapKeys
      rw [List.mem_toFinset, swap_map_fst]
      exact hvs
    obtain ⟨x, hxp, hxv⟩ := (hvarq1 v).mp hvq
    by_cases hch : mapVar m x = x
    · rw [hch] at hxv
      subst hxv
      have hvkeys : v ∈ m.map Prod.fst := by
        have hvl := List.mem_toFinset.mp hvv
        rw [swap_map_snd] at hvl
        exact hvl
      obtain ⟨pr, hpr, hprf⟩ := List.mem_map.mp hvkeys
      have hpm : (v, pr.2) ∈ m := by
        rw [← hprf]
        exact hpr
      have hlk : lookupVar v m = some pr.2 :=
        lookupVar_of_mem v pr.2 m hk hpm
      have hmv : mapVar m v = pr.2 := by
        unfold mapVar
        rw [hlk]
        rfl
      rw [hmv] at hch
      rw [hch] at hpm
      exact hgoal (List.mem_map.mpr ⟨(v, v), hpm, rfl⟩)
    · have hvals := (mapVar_mem_vals m x hch).2
      rw [← hxv] at hvals
      exact hgoal (List.mem_toFinset.mp hvals)
  obtain ⟨R2e, R2n, R2k, R2l⟩ :=
    relabel_correct _ (m.map Prod.swap) R1n hkS hvS hncS
  have hround := roundtrip_mapVar p m hk hv hnc
  refine ⟨R1e, R2e, ?_⟩
  intro t
  by_cases ht : t ∈ p.map Prod.fst
  · have hsub : t ⊆ polyVars p := key_subset_vars p t ht
    have hsub1 : t.image (mapVar m) ⊆
        polyVars (relabel_variables p m).poly := by
      intro w hw
      obtain ⟨x, hx, hxe⟩ := Finset.mem_image.mp hw
      exact (hvarq1 w).mpr ⟨x, hsub hx, hxe.symm⟩
    have hid : (t.image (mapVar m)).image (mapVar (m.map Prod.swap)) = t := by
      rw [Finset.image_image,
        Finset.image_congr (show Set.EqOn
          (mapVar (m.map Prod.swap) ∘ mapVar m) id t from
          fun x hx => hround x (hsub hx))]
      exact Finset.image_id
    rw [show lookupTerm t (relabel_variables (relabel_variables p m).poly
        (m.map Prod.swap)).poly
      = lookupTerm ((t.image (mapVar m)).image (mapVar (m.map Prod.swap)))
        (relabel_variables (relabel_variables p m).poly
          (m.map Prod.swap)).poly from by rw [hid]]
    rw [R2l _ hsub1, R1l t hsub]
  · have h1 : lookupTerm t p = none := (lookupTerm_eq_none_iff t p).mpr ht
    have h2 : t ∉ (relabel_variables (relabel_variables p m).poly
        (m.map Prod.swap)).poly.map Prod.fst := by
      intro hc
      obtain ⟨s1, hs1, hseq⟩ := (R2k t).mp hc
      obtain ⟨s, hs, hseq2⟩ := (R1k s1).mp hs1
      rw [hseq2] at hseq
      have hsub : s ⊆ polyVars p := key_subset_vars p s hs
      rw [Finset.image_image,
        Finset.image_congr (show Set.EqOn
          (mapVar (m.map Prod.swap) ∘ mapVar m) id s from
          fun x hx => hround x (hsub hx)),
        Finset.image_id] at hseq
      exact ht (hseq ▸ hs)
    rw [h1, (lookupTerm_eq_none_iff _ _).mpr h2]

theorem C8_relabel_roundtrip_witness :
    (relabel_variables [({0}, (2 : ℚ)), ({0, 1}, 3)] [(0, 1), (1, 0)]).err
      = none ∧
    (relabel_variables
      (relabel_variables [({0}, (2 : ℚ)), ({0, 1}, 3)] [(0, 1), (1, 0)]).poly
      ([(0, 1), (1, 0)].map Prod.swap)).err = none ∧
    lookupTerm {0, 1}
      (relabel_variables
        (relabel_variables [({0}, (2 : ℚ)), ({0, 1}, 3)] [(0, 1), (1, 0)]).poly
        ([(0, 1), (1, 0)].map Prod.swap)).poly
      = lookupTerm {0, 1} [({0}, (2 : ℚ)), ({0, 1}, 3)] := by
  obtain ⟨h1, h2, h3⟩ := C8_relabel_roundtrip [({0}, (2 : ℚ)), ({0, 1}, 3)]
    [(0, 1), (1, 0)] (by decide) (by decide) (by decide) (by decide)
    (by decide)
  exact ⟨h1, h2, h3 {0, 1}⟩

end Dimod
